import Mathlib

/-!
rntuple-dumper: a shallow embedding of `rntuple_dumper.hxx`, `dump_pages.cxx`
and `dump_column_data.cxx`.

The dumper walks the descriptor of an RNTuple dataset, loads the pages of its
columns and either writes the sealed bytes of every page to a file
(`DumpPages`) or prints the elements of one column (`DumpColumnData`).

The ROOT library is not part of the repository.  Its objects are embedded as
plain data (descriptor tables) and as functions supplied by the page source
(`LoadSealedPage`, `UnsealPage`); the C++ of the repository is translated
statement by statement on top of them.  Machine integers are natural numbers
reduced modulo their width where the C++ variable has a fixed width.
-/

namespace RNTupleDumper

/-! ## Data model -/

/-- One byte of a page buffer. -/
abbrev Byte := Fin 256

/-- The column type tags named by the `switch` of `DumpColumnData`
(`ROOT::Experimental::EColumnType`). -/
inductive EColumnType where
  | kIndex64 | kIndex32 | kSwitch | kByte | kChar | kBit
  | kReal64 | kReal32 | kReal16
  | kInt64 | kUInt64 | kInt32 | kUInt32 | kInt16 | kUInt16 | kInt8 | kUInt8
  | kSplitIndex64 | kSplitIndex32 | kSplitReal64 | kSplitReal32
  | kSplitInt64 | kSplitUInt64 | kSplitInt32 | kSplitUInt32
  | kSplitInt16 | kSplitUInt16
  deriving DecidableEq, Repr

/-- A field of the schema: its id, its (leaf) name as returned by
`GetFieldName()` and the ids of its child fields in child order. -/
structure RFieldDescriptor where
  fFieldId : Nat
  fFieldName : String
  fLinkIds : List Nat
  deriving DecidableEq, Repr

/-- A column: physical id, the id of the field it belongs to, its index among
the columns of that field and its type tag (`GetModel().GetType()`). -/
structure RColumnDescriptor where
  fPhysicalId : Nat
  fFieldId : Nat
  fIndex : Nat
  fType : EColumnType
  deriving DecidableEq, Repr

/-- One entry of a page range (`RPageInfo`): the element count of the page. -/
structure RPageInfo where
  fNElements : Nat
  deriving DecidableEq, Repr

/-- A cluster: its id and, for every column that has data in it, the page range
of that column (`fPageInfos`, in range order). -/
structure RClusterDescriptor where
  fClusterId : Nat
  fPageRanges : List (Nat × List RPageInfo)
  deriving DecidableEq, Repr

/-- The descriptor of a dataset.  `FindFieldId` is the name lookup of the
library; `none` stands for `kInvalidDescriptorId`. -/
structure RNTupleDescriptor where
  fFieldZeroId : Nat
  fFieldDescriptors : List RFieldDescriptor
  fColumnDescriptors : List RColumnDescriptor
  fClusterDescriptors : List RClusterDescriptor
  fClusterGroupIds : List Nat
  FindFieldId : String → Option Nat

/-- The locator `RClusterIndex(clusterId, index)`: a cluster and an element
offset inside the column range of that cluster. -/
structure RClusterIndex where
  fClusterId : Nat
  fIndex : Nat
  deriving DecidableEq, Repr

/-- A sealed page as filled in by `LoadSealedPage`: `fSize` is the length of
`fBuffer`. -/
structure RSealedPage where
  fBuffer : List Byte
  fNElements : Nat
  deriving DecidableEq, Repr

/-- An unsealed page (`RPage`): `GetBuffer()`, whose length is `GetNBytes()`,
and `GetElementSize()`. -/
structure RPage where
  fBuffer : List Byte
  fElementSize : Nat
  deriving DecidableEq, Repr

/-- The page source: the attached descriptor and the two storage operations the
dumper calls. -/
structure RPageSource where
  fDescriptor : RNTupleDescriptor
  LoadSealedPage : Nat → RClusterIndex → RSealedPage
  UnsealPage : RSealedPage → EColumnType → Nat → RPage

/-- `page.GetNBytes()`. -/
def RPage.GetNBytes (page : RPage) : Nat := page.fBuffer.length

/-- `sealedPage.fSize`. -/
def RSealedPage.fSize (sealedPage : RSealedPage) : Nat := sealedPage.fBuffer.length

/-- `desc.GetFieldDescriptor(fieldId)`. -/
def RNTupleDescriptor.GetFieldDescriptor (desc : RNTupleDescriptor) (fieldId : Nat) :
    Option RFieldDescriptor :=
  desc.fFieldDescriptors.find? (fun f => f.fFieldId == fieldId)

/-- `desc.GetColumnDescriptor(columnId)`. -/
def RNTupleDescriptor.GetColumnDescriptor (desc : RNTupleDescriptor) (columnId : Nat) :
    Option RColumnDescriptor :=
  desc.fColumnDescriptors.find? (fun c => c.fPhysicalId == columnId)

/-- `desc.GetColumnIterable(fieldDesc)`: the columns of the field, in stored
order. -/
def RNTupleDescriptor.GetColumnIterable (desc : RNTupleDescriptor)
    (fieldDesc : RFieldDescriptor) : List RColumnDescriptor :=
  desc.fColumnDescriptors.filter (fun c => c.fFieldId == fieldDesc.fFieldId)

/-- `desc.GetFieldIterable(fieldDesc)`: the child fields, in child order. -/
def RNTupleDescriptor.GetFieldIterable (desc : RNTupleDescriptor)
    (fieldDesc : RFieldDescriptor) : List RFieldDescriptor :=
  fieldDesc.fLinkIds.filterMap desc.GetFieldDescriptor

/-- `cluster.GetPageRange(columnId).fPageInfos`, when the cluster has the
column. -/
def RClusterDescriptor.GetPageRange (cluster : RClusterDescriptor) (columnId : Nat) :
    Option (List RPageInfo) :=
  (cluster.fPageRanges.find? (fun r => r.1 == columnId)).map (fun r => r.2)

/-- `cluster.ContainsColumn(columnId)`. -/
def RClusterDescriptor.ContainsColumn (cluster : RClusterDescriptor) (columnId : Nat) : Bool :=
  (cluster.GetPageRange columnId).isSome

/-! ## `DumpColumnData` -/

/-- What is handed to `output <<` for one element. -/
inductive Line where
  /-- an unsigned integer, printed in decimal -/
  | unsignedInt (v : Nat)
  /-- a signed integer, printed in decimal -/
  | signedInt (v : Int)
  /-- a `char`, `unsigned char` or `signed char`: the byte itself is written -/
  | character (byte : Nat)
  /-- a `double` that holds the integer `v` -/
  | real64 (v : Int)
  /-- a `float` with the given bit pattern; `none` when one of its four bytes
  lies outside the page buffer -/
  | float32 (bits : Option Nat)
  /-- a `std::bitset<8>`, printed as eight binary digits -/
  | bitset8 (v : Nat)
  /-- a `bool`, printed as `0` or `1` -/
  | boolean (b : Bool)
  deriving DecidableEq, Repr

/-- The text of a line, for the kinds whose text is a plain decimal number. -/
def Line.text : Line → Option String
  | .unsignedInt v => some (toString v)
  | .signedInt v => some (toString v)
  | .real64 v => some (toString v)
  | .boolean b => some (if b then "1" else "0")
  | .character _ => none
  | .float32 _ => none
  | .bitset8 _ => none

/-- The value of `buff[buffIdx]`, an object of type `char`; `charIsSigned` says
whether `char` is a signed type on the host. -/
def charAt (charIsSigned : Bool) (buff : List Byte) (buffIdx : Nat) : Int :=
  let b : Nat := ((buff.getD buffIdx 0 : Byte) : Nat)
  if charIsSigned && decide (128 ≤ b) then (b : Int) - 256 else (b : Int)

/-- `static_cast` of a `char` value to an unsigned integer type of `bits`
bits. -/
def castUnsigned (bits : Nat) (c : Int) : Nat := (c % (2 ^ bits : Int)).toNat

/-- The four bytes at `buffIdx .. buffIdx + 3` read as one little-endian 32-bit
pattern (`*reinterpret_cast<float *>(&buff[buffIdx])`). -/
def floatBitsAt (buff : List Byte) (buffIdx : Nat) : Option Nat :=
  match buff[buffIdx]?, buff[buffIdx + 1]?, buff[buffIdx + 2]?, buff[buffIdx + 3]? with
  | some b0, some b1, some b2, some b3 =>
    some (b0.val + 256 * b1.val + 65536 * b2.val + 16777216 * b3.val)
  | _, _, _, _ => none

/-- The buffer offsets one pass of the `switch` reads at `buffIdx`. -/
def bytesRead (type : EColumnType) (buffIdx : Nat) : List Nat :=
  match type with
  | .kReal32 | .kSplitReal32 | .kReal16 => [buffIdx, buffIdx + 1, buffIdx + 2, buffIdx + 3]
  | .kSwitch => []
  | _ => [buffIdx]

/-- The `switch` of `DumpColumnData`: the line written for the element at
`buffIdx`; `none` is `R__ASSERT(false)`.  `ClusterSize_t` is streamed as its
64-bit unsigned value. -/
def decodeElement (charIsSigned : Bool) (type : EColumnType) (buff : List Byte)
    (buffIdx : Nat) : Option Line :=
  match type with
  | .kIndex64 | .kIndex32 | .kSplitIndex64 | .kSplitIndex32 =>
    some (.unsignedInt (castUnsigned 64 (charAt charIsSigned buff buffIdx)))
  | .kUInt64 | .kSplitUInt64 =>
    some (.unsignedInt (castUnsigned 64 (charAt charIsSigned buff buffIdx)))
  | .kUInt32 | .kSplitUInt32 =>
    some (.unsignedInt (castUnsigned 32 (charAt charIsSigned buff buffIdx)))
  | .kUInt16 | .kSplitUInt16 =>
    some (.unsignedInt (castUnsigned 16 (charAt charIsSigned buff buffIdx)))
  | .kUInt8 => some (.character (castUnsigned 8 (charAt charIsSigned buff buffIdx)))
  | .kInt64 | .kSplitInt64 => some (.signedInt (charAt charIsSigned buff buffIdx))
  | .kSplitInt32 | .kInt32 => some (.signedInt (charAt charIsSigned buff buffIdx))
  | .kInt16 | .kSplitInt16 => some (.signedInt (charAt charIsSigned buff buffIdx))
  | .kInt8 => some (.character (castUnsigned 8 (charAt charIsSigned buff buffIdx)))
  | .kReal64 | .kSplitReal64 => some (.real64 (charAt charIsSigned buff buffIdx))
  | .kReal32 | .kSplitReal32 | .kReal16 => some (.float32 (floatBitsAt buff buffIdx))
  | .kByte => some (.bitset8 (castUnsigned 8 (charAt charIsSigned buff buffIdx)))
  | .kChar => some (.character (castUnsigned 8 (charAt charIsSigned buff buffIdx)))
  | .kBit => some (.boolean (charAt charIsSigned buff buffIdx != 0))
  | .kSwitch => none

/-- One call of `fSource->LoadSealedPage(columnId, index, sealedPage)`;
`sizing` marks the first call of a pair, made without a buffer to learn
`fSize`. -/
structure LoadCall where
  columnId : Nat
  index : RClusterIndex
  sizing : Bool
  deriving DecidableEq, Repr

/-- One byte read from a page buffer of `nBytes` bytes at offset `offset`. -/
structure ByteRead where
  nBytes : Nat
  offset : Nat
  deriving DecidableEq, Repr

/-- How a loop of `DumpColumnData` was left. -/
inductive Flow where
  /-- the loop ran to its end -/
  | next
  /-- `return`, taken when `++elementsProcessed > nElements` -/
  | returned
  /-- `R__ASSERT(false)` -/
  | asserted
  /-- the model ran out of fuel inside the `while` loop -/
  | outOfFuel
  deriving DecidableEq, Repr

/-- The observable state of a run of `DumpColumnData`. -/
structure DumpState where
  elementsProcessed : Nat
  output : List Line
  loads : List LoadCall
  reads : List ByteRead
  deriving DecidableEq, Repr

/-- The `while (buffIdx < page.GetNBytes())` loop.  `buffIdx` is an
`unsigned int`, `elementsProcessed` a `std::uint64_t`. -/
def decodePage (charIsSigned : Bool) (type : EColumnType) (nElements : Nat) (page : RPage) :
    Nat → Nat → DumpState → Flow × DumpState
  | 0, _, st => (.outOfFuel, st)
  | fuel + 1, buffIdx, st =>
    if buffIdx < page.GetNBytes then
      let processed := (st.elementsProcessed + 1) % 2 ^ 64
      if processed > nElements then
        (.returned, { st with elementsProcessed := processed })
      else
        match decodeElement charIsSigned type page.fBuffer buffIdx with
        | none => (.asserted, { st with elementsProcessed := processed })
        | some line =>
          decodePage charIsSigned type nElements page fuel
            ((buffIdx + page.fElementSize) % 2 ^ 32)
            { elementsProcessed := processed
              output := st.output ++ [line]
              loads := st.loads
              reads := st.reads ++ (bytesRead type buffIdx).map (ByteRead.mk page.GetNBytes) }
    else
      (.next, st)

/-- The loop over `pages.fPageInfos` of one cluster; `clusterIdx` is a
`size_t`. -/
def dumpPageRange (charIsSigned : Bool) (src : RPageSource) (columnId : Nat)
    (type : EColumnType) (nElements fuel clusterId : Nat) :
    List RPageInfo → Nat → DumpState → Flow × DumpState
  | [], _, st => (.next, st)
  | pageInfo :: rest, clusterIdx, st =>
    let index : RClusterIndex := ⟨clusterId, clusterIdx⟩
    let sealedPage := src.LoadSealedPage columnId index
    let loaded : DumpState :=
      { st with loads := st.loads ++ [⟨columnId, index, true⟩, ⟨columnId, index, false⟩] }
    let page := src.UnsealPage sealedPage type columnId
    match decodePage charIsSigned type nElements page fuel 0 loaded with
    | (.next, st2) =>
      dumpPageRange charIsSigned src columnId type nElements fuel clusterId rest
        ((clusterIdx + pageInfo.fNElements) % 2 ^ 64) st2
    | stopped => stopped

/-- The loop over `desc->GetClusterIterable()`. -/
def dumpClusters (charIsSigned : Bool) (src : RPageSource) (columnId : Nat)
    (type : EColumnType) (nElements fuel : Nat) :
    List RClusterDescriptor → DumpState → Flow × DumpState
  | [], st => (.next, st)
  | cluster :: rest, st =>
    match cluster.GetPageRange columnId with
    | none => dumpClusters charIsSigned src columnId type nElements fuel rest st
    | some pages =>
      match dumpPageRange charIsSigned src columnId type nElements fuel cluster.fClusterId
          pages 0 st with
      | (.next, st2) => dumpClusters charIsSigned src columnId type nElements fuel rest st2
      | stopped => stopped

/-- `RNTupleDumper::DumpColumnData(columnId, nElements, output)`.  The result
is `none` when the descriptor has no column `columnId`
(`GetColumnDescriptor` throws). -/
def DumpColumnData (charIsSigned : Bool) (src : RPageSource) (columnId nElements fuel : Nat) :
    Option (Flow × DumpState) :=
  match src.fDescriptor.GetColumnDescriptor columnId with
  | none => none
  | some column =>
    some (dumpClusters charIsSigned src columnId column.fType nElements fuel
      src.fDescriptor.fClusterDescriptors ⟨0, [], [], []⟩)

/-! ## The pages and lines of a column, as the specification describes them -/

/-- The unsealed page obtained for a locator: `LoadSealedPage` followed by
`UnsealPage`. -/
def loadPage (src : RPageSource) (columnId : Nat) (type : EColumnType)
    (index : RClusterIndex) : RPage :=
  src.UnsealPage (src.LoadSealedPage columnId index) type columnId

/-- The element offsets of the pages of a range: page `k` starts at `start`
plus the element counts of the pages before it. -/
def pageOffsets : List RPageInfo → Nat → List Nat
  | [], _ => []
  | pageInfo :: rest, start => start :: pageOffsets rest (start + pageInfo.fNElements)

/-- The pages of one range, each with its page info, addressed at the offsets
of `pageOffsets`. -/
def rangePages (src : RPageSource) (columnId : Nat) (type : EColumnType) (clusterId : Nat)
    (pages : List RPageInfo) (start : Nat) : List (RPageInfo × RPage) :=
  List.zipWith (fun pageInfo offset => (pageInfo, loadPage src columnId type ⟨clusterId, offset⟩))
    pages (pageOffsets pages start)

/-- The pages of a column in one cluster; none when the cluster does not
contain the column. -/
def clusterPages (src : RPageSource) (columnId : Nat) (type : EColumnType)
    (cluster : RClusterDescriptor) : List (RPageInfo × RPage) :=
  match cluster.GetPageRange columnId with
  | none => []
  | some pages => rangePages src columnId type cluster.fClusterId pages 0

/-- The pages of a column over the clusters that contain it: cluster order,
then page order. -/
def columnPages (src : RPageSource) (columnId : Nat) (type : EColumnType) :
    List (RPageInfo × RPage) :=
  src.fDescriptor.fClusterDescriptors.flatMap (clusterPages src columnId type)

/-- The values of the elements `first, first + 1, ..., first + count - 1` of a
page, one per stride of `GetElementSize()` bytes. -/
def pageLinesFrom (charIsSigned : Bool) (type : EColumnType) (page : RPage)
    (first count : Nat) : List Line :=
  (List.range' first count).filterMap (fun i =>
    decodeElement charIsSigned type page.fBuffer (i * page.fElementSize))

/-- All values of a column: the elements of every page of `columnPages`. -/
def columnLines (charIsSigned : Bool) (src : RPageSource) (columnId : Nat)
    (type : EColumnType) : List Line :=
  (columnPages src columnId type).flatMap (fun p =>
    pageLinesFrom charIsSigned type p.2 0 p.1.fNElements)

/-- The total element count of the pages of a column. -/
def columnElements (src : RPageSource) (columnId : Nat) (type : EColumnType) : Nat :=
  ((columnPages src columnId type).map (fun p => p.1.fNElements)).sum

/-- A page whose byte length is its element count times a positive element
size, and fits the 32-bit `buffIdx`. -/
abbrev PageSized (p : RPageInfo × RPage) : Prop :=
  p.2.GetNBytes = p.1.fNElements * p.2.fElementSize ∧ 0 < p.2.fElementSize ∧
    p.2.GetNBytes < 2 ^ 32

/-- The invariant of the three loops of `DumpColumnData` with respect to a
maximum of `K` elements: running from `st` over elements whose values are
`lines` ends in `r`. -/
def Emits (K : Nat) (st : DumpState) (lines : List Line) (r : Flow × DumpState) : Prop :=
  r.2.output = st.output ++ lines.take (K - st.elementsProcessed) ∧
  ((lines.length ≤ K - st.elementsProcessed ∧ r.1 = .next ∧
      r.2.elementsProcessed = st.elementsProcessed + lines.length) ∨
   (K - st.elementsProcessed < lines.length ∧ r.1 = .returned))

/-- The element offset of page `k` of a range, in the words of the
specification: the sum of the element counts of pages `0 .. k-1`. -/
def offsetOfPage (pages : List RPageInfo) (k : Nat) : Nat :=
  ((pages.take k).map (fun p => p.fNElements)).sum

/-- The two calls of `LoadSealedPage` that load one page: the sizing call and
the call that fills the buffer. -/
def loadPair (columnId clusterId offset : Nat) : List LoadCall :=
  [⟨columnId, ⟨clusterId, offset⟩, true⟩, ⟨columnId, ⟨clusterId, offset⟩, false⟩]

/-- One load per page of a range, in range order, page `k` addressed at
`offsetOfPage pages k`. -/
def rangeLoads (columnId clusterId : Nat) (pages : List RPageInfo) : List LoadCall :=
  (List.range pages.length).flatMap (fun k => loadPair columnId clusterId (offsetOfPage pages k))

/-- The loads of one column in one cluster: those of its range when the
cluster contains the column. -/
def clusterLoads (columnId : Nat) (cluster : RClusterDescriptor) : List LoadCall :=
  match cluster.GetPageRange columnId with
  | none => []
  | some pages => rangeLoads columnId cluster.fClusterId pages

/-- No page range of the descriptor holds `2 ^ 64` elements or more, so that
the `size_t` offset `clusterIdx` does not wrap. -/
abbrev RangesFit (desc : RNTupleDescriptor) : Prop :=
  ∀ cluster ∈ desc.fClusterDescriptors, ∀ r ∈ cluster.fPageRanges,
    (r.2.map (fun p => p.fNElements)).sum < 2 ^ 64

/-- The loads made from `st` on are an initial part of `expected`, and all of
it when the loop ran to its end. -/
def LoadsWithin (st : DumpState) (expected : List LoadCall) (r : Flow × DumpState) : Prop :=
  ∃ done, done <+: expected ∧ r.2.loads = st.loads ++ done ∧ (r.1 = .next → done = expected)

/-- The bytes of a stride read as one unsigned integer, least significant byte
first. -/
def littleEndian : List Byte → Nat
  | [] => 0
  | b :: rest => b.val + 256 * littleEndian rest

/-- The lines the specification describes for an unsigned integer column of
byte width `width`: one per stride, in buffer order, each the value of the
whole stride. -/
def reinterpretedLines (width : Nat) (buff : List Byte) : List Line :=
  (List.range (buff.length / width)).map (fun i =>
    Line.unsignedInt (littleEndian ((buff.drop (i * width)).take width)))

/-- One page of a column as the dumper addresses it: the cluster, the element
offset inside the range of the cluster, and the element count of the page. -/
structure PageSlot where
  clusterId : Nat
  offset : Nat
  count : Nat
  deriving DecidableEq, Repr

/-- The pages of a range in range order, page `k` at `offsetOfPage pages k`. -/
def rangeSlots (clusterId : Nat) (pages : List RPageInfo) : List PageSlot :=
  List.zipWith (fun p k => (⟨clusterId, offsetOfPage pages k, p.fNElements⟩ : PageSlot))
    pages (List.range pages.length)

/-- The pages of a column in one cluster; none when the cluster does not
contain the column. -/
def clusterSlots (columnId : Nat) (cluster : RClusterDescriptor) : List PageSlot :=
  match cluster.GetPageRange columnId with
  | none => []
  | some pages => rangeSlots cluster.fClusterId pages

/-- All pages of a column: cluster order, then range order. -/
def columnSlots (desc : RNTupleDescriptor) (columnId : Nat) : List PageSlot :=
  desc.fClusterDescriptors.flatMap (clusterSlots columnId)

/-- The number of elements of the column that lie in the pages before page
`j`. -/
def elementsBefore (slots : List PageSlot) (j : Nat) : Nat :=
  ((slots.take j).map (fun s => s.count)).sum

/-- The pages that are preceded by at most `limit` elements of the column. -/
def loadedSlots (limit : Nat) (slots : List PageSlot) : List PageSlot :=
  ((slots.zip (List.range slots.length)).filter
    (fun sj => decide (elementsBefore slots sj.2 ≤ limit))).map (fun sj => sj.1)

/-- The number of elements a run of `DumpColumnData` gets past: the maximum
count for a type with a decode rule, none for `kSwitch`, whose first element
ends the run. -/
def loadLimit (type : EColumnType) (K : Nat) : Nat :=
  if type = .kSwitch then 0 else K

/-- The two calls of `LoadSealedPage` that load the page of a slot. -/
def slotLoads (columnId : Nat) (slot : PageSlot) : List LoadCall :=
  loadPair columnId slot.clusterId slot.offset

/-- The pages of a range with their running offsets, by accumulation. -/
def rangeSlotsFrom (clusterId : Nat) : List RPageInfo → Nat → List PageSlot
  | [], _ => []
  | p :: rest, offset =>
    ⟨clusterId, offset, p.fNElements⟩ :: rangeSlotsFrom clusterId rest (offset + p.fNElements)

/-- The initial pages of a list that are each preceded by at most `limit`
elements, `before` elements lying before the list. -/
def slotsUpTo (limit : Nat) : List PageSlot → Nat → List PageSlot
  | [], _ => []
  | slot :: rest, before =>
    if before ≤ limit then slot :: slotsUpTo limit rest (before + slot.count) else []

/-- The outcome of the `while` loop on a page of `n` elements with respect to
`limit`: either it runs to its end, having counted the `n` elements within the
limit, or it ends the run and the page reaches past the limit. -/
def PageStep (limit n : Nat) (st : DumpState) (r : Flow × DumpState) : Prop :=
  (r.1 = .next ∧ r.2.elementsProcessed = st.elementsProcessed + n ∧
      st.elementsProcessed + n ≤ limit) ∨
  (r.1 ≠ .next ∧ limit < st.elementsProcessed + n)

/-- The invariant of the page and cluster loops of `DumpColumnData` for the
loads: running from `st` over `slots` loads exactly the pages of `slotsUpTo`. -/
def LoadsExactly (limit columnId : Nat) (st : DumpState) (slots : List PageSlot)
    (r : Flow × DumpState) : Prop :=
  r.2.loads = st.loads
      ++ (slotsUpTo limit slots st.elementsProcessed).flatMap (slotLoads columnId) ∧
    PageStep limit ((slots.map (fun s => s.count)).sum) st r

/-- `RColumnInfo`: a column, the field it was found under and the qualified
name used in file names. -/
structure RColumnInfo where
  fColumnDesc : RColumnDescriptor
  fFieldDesc : RFieldDescriptor
  fQualName : String
  deriving DecidableEq, Repr

/-- The constructor of `RColumnInfo`:
`fQualName(fieldDesc.GetFieldName() + "-" + std::to_string(columnDesc.GetIndex()))`. -/
def RColumnInfo.make (columnDesc : RColumnDescriptor) (fieldDesc : RFieldDescriptor) :
    RColumnInfo :=
  ⟨columnDesc, fieldDesc, fieldDesc.fFieldName ++ "-" ++ toString columnDesc.fIndex⟩

/-- `RNTupleDumper::AddColumnsFromField(vec, desc, fieldDesc)`.  The recursion
follows the links of the descriptor; `none` is returned when the fuel does not
cover its depth. -/
def AddColumnsFromField (desc : RNTupleDescriptor) :
    Nat → List RColumnInfo → RFieldDescriptor → Option (List RColumnInfo)
  | 0, _, _ => none
  | fuel + 1, vec, fieldDesc =>
    let own := (desc.GetColumnIterable fieldDesc).foldl
      (fun v column => v ++ [RColumnInfo.make column fieldDesc]) vec
    (desc.GetFieldIterable fieldDesc).foldlM
      (fun v field => AddColumnsFromField desc fuel v field) own

/-- How `CollectColumns` ends. -/
inductive CollectResult where
  /-- `exit(1)` after `Field with name ... does not exist` -/
  | exited (status : Nat)
  /-- `GetFieldDescriptor` has no entry for the id (the library throws) -/
  | thrown
  /-- the model ran out of fuel inside the recursion -/
  | outOfFuel
  /-- the vector that is returned -/
  | columns (cols : List RColumnInfo)
  deriving DecidableEq, Repr

/-- `RNTupleDumper::CollectColumns(fieldName)`. -/
def CollectColumns (desc : RNTupleDescriptor) (fuel : Nat) (fieldName : String) :
    CollectResult :=
  let resolved : Option Nat :=
    if fieldName.isEmpty then some desc.fFieldZeroId else desc.FindFieldId fieldName
  match resolved with
  | none => .exited 1
  | some fieldId =>
    match desc.GetFieldDescriptor fieldId with
    | none => .thrown
    | some fieldDesc =>
      match AddColumnsFromField desc fuel [] fieldDesc with
      | none => .outOfFuel
      | some cols => .columns cols

/-- A finite tree of field ids. -/
inductive FieldTree where
  | node (fieldId : Nat) (children : List FieldTree)

/-- The id at the root of a tree. -/
def FieldTree.fieldId : FieldTree → Nat
  | .node fieldId _ => fieldId

mutual
/-- The field ids of a tree, root first, then the subtrees in child order. -/
def FieldTree.ids : FieldTree → List Nat
  | .node fieldId children => fieldId :: FieldTree.idsOfList children
/-- The field ids of a list of trees, one tree after the other. -/
def FieldTree.idsOfList : List FieldTree → List Nat
  | [] => []
  | t :: ts => t.ids ++ FieldTree.idsOfList ts
end

mutual
/-- All subtrees of a tree, the tree itself first. -/
def FieldTree.subtrees : FieldTree → List FieldTree
  | .node fieldId children => .node fieldId children :: FieldTree.subtreesOfList children
/-- The subtrees of a list of trees. -/
def FieldTree.subtreesOfList : List FieldTree → List FieldTree
  | [] => []
  | t :: ts => t.subtrees ++ FieldTree.subtreesOfList ts
end

mutual
/-- The number of fields on the longest path from the root down. -/
def FieldTree.height : FieldTree → Nat
  | .node _ children => FieldTree.heightOfList children + 1
/-- The largest height in a list of trees. -/
def FieldTree.heightOfList : List FieldTree → Nat
  | [] => 0
  | t :: ts => max t.height (FieldTree.heightOfList ts)
end

mutual
/-- Every node of the tree has a field descriptor in the table, and the links
of that descriptor are the ids of the children of the node, in order. -/
def FieldTree.linkedIn (desc : RNTupleDescriptor) : FieldTree → Bool
  | .node fieldId children =>
    (match desc.GetFieldDescriptor fieldId with
      | none => false
      | some fieldDesc => fieldDesc.fLinkIds == children.map FieldTree.fieldId)
    && FieldTree.linkedInList desc children
/-- The same for every tree of a list. -/
def FieldTree.linkedInList (desc : RNTupleDescriptor) : List FieldTree → Bool
  | [] => true
  | t :: ts => t.linkedIn desc && FieldTree.linkedInList desc ts
end

/-- A well-formed descriptor: its fields form the finite tree `tree` rooted at
the zero field, no field occurs twice in it, and every column belongs to one
field of the tree. -/
abbrev WellFormed (desc : RNTupleDescriptor) (tree : FieldTree) : Prop :=
  tree.fieldId = desc.fFieldZeroId ∧ tree.linkedIn desc = true ∧ tree.ids.Nodup ∧
    ∀ c ∈ desc.fColumnDescriptors, c.fFieldId ∈ tree.ids

/-- The own columns of the field with the given id, in stored order. -/
def ownColumns (desc : RNTupleDescriptor) (fieldId : Nat) : List RColumnInfo :=
  match desc.GetFieldDescriptor fieldId with
  | none => []
  | some fieldDesc =>
    (desc.GetColumnIterable fieldDesc).map (fun column => RColumnInfo.make column fieldDesc)

mutual
/-- The pre-order of the specification: for each field first its own columns,
then the result of each child in child order. -/
def preorderColumns (desc : RNTupleDescriptor) : FieldTree → List RColumnInfo
  | .node fieldId children => ownColumns desc fieldId ++ preorderOfList desc children
/-- The pre-order of a list of trees, one tree after the other. -/
def preorderOfList (desc : RNTupleDescriptor) : List FieldTree → List RColumnInfo
  | [] => []
  | t :: ts => preorderColumns desc t ++ preorderOfList desc ts
end

/-! ## `DumpPages` and `DumpMetadata` -/

/-- One file written through a `std::ofstream`: its path and the bytes
written. -/
structure FileWrite where
  path : String
  bytes : List Byte
  deriving DecidableEq, Repr

/-- The observable effects of `DumpPages`. -/
structure PagesDump where
  files : List FileWrite
  loads : List LoadCall
  deriving DecidableEq, Repr

/-- The name of the file of one page:
`outputPath + "/cluster" + id + "_" + fQualName + "_pg" + pageNum + ".page"`. -/
def pageFileName (outputPath : String) (clusterId : Nat) (qualName : String) (pageNum : Nat) :
    String :=
  outputPath ++ "/cluster" ++ toString clusterId ++ "_" ++ qualName ++ "_pg"
    ++ toString pageNum ++ ".page"

/-- The loop over `pages.fPageInfos` in `DumpPages`; `clusterIdx` and `pageNum`
are `size_t`. -/
def dumpRangePages (src : RPageSource) (outputPath : String) (clusterId : Nat)
    (column : RColumnInfo) : List RPageInfo → Nat → Nat → PagesDump → PagesDump
  | [], _, _, st => st
  | pageInfo :: rest, clusterIdx, pageNum, st =>
    let columnId := column.fColumnDesc.fPhysicalId
    let index : RClusterIndex := ⟨clusterId, clusterIdx⟩
    let sealedPage := src.LoadSealedPage columnId index
    dumpRangePages src outputPath clusterId column rest
      ((clusterIdx + pageInfo.fNElements) % 2 ^ 64) ((pageNum + 1) % 2 ^ 64)
      { files := st.files ++
          [⟨pageFileName outputPath clusterId column.fQualName pageNum, sealedPage.fBuffer⟩]
        loads := st.loads ++ [⟨columnId, index, true⟩, ⟨columnId, index, false⟩] }

/-- The loop over `columns` in `DumpPages`, for one cluster. -/
def dumpClusterColumns (src : RPageSource) (outputPath : String)
    (cluster : RClusterDescriptor) : List RColumnInfo → PagesDump → PagesDump
  | [], st => st
  | column :: rest, st =>
    match cluster.GetPageRange column.fColumnDesc.fPhysicalId with
    | none => dumpClusterColumns src outputPath cluster rest st
    | some pages =>
      dumpClusterColumns src outputPath cluster rest
        (dumpRangePages src outputPath cluster.fClusterId column pages 0 0 st)

/-- The loop over `desc->GetClusterIterable()` in `DumpPages`. -/
def dumpPagesClusters (src : RPageSource) (outputPath : String) (columns : List RColumnInfo) :
    List RClusterDescriptor → PagesDump → PagesDump
  | [], st => st
  | cluster :: rest, st =>
    dumpPagesClusters src outputPath columns rest
      (dumpClusterColumns src outputPath cluster columns st)

/-- `RNTupleDumper::DumpPages(columns, outputPath, filenameTmpl)`. -/
def DumpPages (src : RPageSource) (columns : List RColumnInfo) (outputPath : String) :
    PagesDump :=
  dumpPagesClusters src outputPath columns src.fDescriptor.fClusterDescriptors ⟨[], []⟩

/-- The content of the file at `path` after a sequence of writes: every
`std::ofstream` truncates the file it opens, so the last write stays. -/
def fileContent (files : List FileWrite) (path : String) : Option (List Byte) :=
  (files.reverse.find? (fun w => w.path == path)).map (fun w => w.bytes)

/-- The serializer of the library, as far as `DumpMetadata` uses it. -/
structure RNTupleSerializer where
  SerializeHeader : RNTupleDescriptor → List Byte
  SerializePageList : RNTupleDescriptor → Nat → List Byte
  SerializeFooter : RNTupleDescriptor → List Byte

/-- `RNTupleDumper::DumpMetadata(outputPath)`: the files `header`,
`cg<id>.pagelist` for every cluster group, and `footer`. -/
def DumpMetadata (serializer : RNTupleSerializer) (src : RPageSource) (outputPath : String) :
    List FileWrite :=
  [⟨outputPath ++ "/header", serializer.SerializeHeader src.fDescriptor⟩]
    ++ src.fDescriptor.fClusterGroupIds.map (fun groupId =>
      ⟨outputPath ++ "/cg" ++ toString groupId ++ ".pagelist",
        serializer.SerializePageList src.fDescriptor groupId⟩)
    ++ [⟨outputPath ++ "/footer", serializer.SerializeFooter src.fDescriptor⟩]

/-! ## The two programs -/

/-- The collaborators of the two `main` functions that live outside the
repository: the signedness of `char`, the file-system queries, `std::stoul`
(`none` when it throws), `RPageSource::Create` followed by `Attach`, and the
serializer. -/
structure Host where
  charIsSigned : Bool
  is_directory : String → Bool
  has_parent_path : String → Bool
  stoul : String → Option Nat
  Create : String → String → RPageSource
  serializer : RNTupleSerializer

/-- How a run of a program ends. -/
inductive Ending where
  /-- `exit(status)`, or `return status` from `main` -/
  | exit (status : Nat)
  /-- an exception of the library leaves `main` -/
  | uncaught
  /-- the model ran out of fuel -/
  | unfinished
  deriving DecidableEq, Repr

/-- What the `getopt` loop of a `main` leaves behind. -/
inductive Parsed (α : Type) where
  /-- `Usage(argv[0])` was called -/
  | usage
  /-- `std::stoul` threw -/
  | thrown
  /-- the loop ended with these settings -/
  | settings (a : α)

/-- `kDumpNone`. -/
def kDumpNone : Nat := 0

/-- `kDumpPages`. -/
def kDumpPages : Nat := 0x01

/-- `kDumpMetadata`. -/
def kDumpMetadata : Nat := 0x02

/-- One option delivered by `getopt(argc, argv, "hmaf:o:")` in `dump_pages`. -/
inductive PagesOption where
  | m
  | a
  | f (optarg : String)
  | o (optarg : String)
  | h
  | unrecognised
  deriving DecidableEq, Repr

/-- The options that select something to dump: `-m`, `-a` and `-f`. -/
def PagesOption.selectsDump : PagesOption → Bool
  | .m => true
  | .a => true
  | .f _ => true
  | _ => false

/-- The variables the option loop of `dump_pages` sets. -/
structure PagesSettings where
  dumpFlags : Nat
  fieldName : String
  outputPath : String
  deriving DecidableEq, Repr

/-- The `while ((c = getopt(...)) != -1)` loop of `dump_pages`. -/
def parsePagesOptions : List PagesOption → PagesSettings → Parsed PagesSettings
  | [], s => .settings s
  | .m :: rest, s => parsePagesOptions rest { s with dumpFlags := s.dumpFlags ||| kDumpMetadata }
  | .a :: rest, s => parsePagesOptions rest { s with dumpFlags := s.dumpFlags ||| kDumpPages }
  | .f optarg :: rest, s =>
    parsePagesOptions rest { s with dumpFlags := s.dumpFlags ||| kDumpPages, fieldName := optarg }
  | .o optarg :: rest, s => parsePagesOptions rest { s with outputPath := optarg }
  | .h :: _, _ => .usage
  | .unrecognised :: _, _ => .usage

/-- The observable result of a run of `dump_pages`. -/
structure PagesRun where
  ending : Ending
  datasetOpened : Bool
  files : List FileWrite
  deriving DecidableEq, Repr

/-- `Usage(argv[0])` of `dump_pages`: prints the usage text and calls
`exit(0)`. -/
def pagesUsage : PagesRun := ⟨.exit 0, false, []⟩

/-- `main` of `dump_pages.cxx`, on the options `getopt` delivers and the
operands `argv[optind ..]`. -/
def dumpPagesMain (host : Host) (fuel : Nat) (options : List PagesOption)
    (operands : List String) : PagesRun :=
  match parsePagesOptions options ⟨kDumpNone, "", "./"⟩ with
  | .usage => pagesUsage
  | .thrown => ⟨.uncaught, false, []⟩
  | .settings s =>
    if operands.length != 2 || s.dumpFlags == kDumpNone then pagesUsage
    else if !host.is_directory s.outputPath then ⟨.exit 1, false, []⟩
    else
      match operands with
      | [inputFile, ntupleName] =>
        let source := host.Create ntupleName inputFile
        let metadata :=
          if s.dumpFlags &&& kDumpMetadata != 0 then
            DumpMetadata host.serializer source s.outputPath
          else []
        if s.dumpFlags &&& kDumpPages != 0 then
          match CollectColumns source.fDescriptor fuel s.fieldName with
          | .exited status => ⟨.exit status, true, metadata⟩
          | .thrown => ⟨.uncaught, true, metadata⟩
          | .outOfFuel => ⟨.unfinished, true, metadata⟩
          | .columns cols =>
            ⟨.exit 0, true, metadata ++ (DumpPages source cols s.outputPath).files⟩
        else ⟨.exit 0, true, metadata⟩
      | _ => pagesUsage

/-- One option delivered by `getopt(argc, argv, "hn:o:")` in
`dump_column_data`. -/
inductive ColumnDataOption where
  | n (optarg : String)
  | o (optarg : String)
  | h
  | unrecognised
  deriving DecidableEq, Repr

/-- The variables the option loop of `dump_column_data` sets. -/
structure ColumnDataSettings where
  nMaxElements : Nat
  outputPath : String
  deriving DecidableEq, Repr

/-- The `while ((c = getopt(...)) != -1)` loop of `dump_column_data`. -/
def parseColumnDataOptions (host : Host) :
    List ColumnDataOption → ColumnDataSettings → Parsed ColumnDataSettings
  | [], s => .settings s
  | .n optarg :: rest, s =>
    match host.stoul optarg with
    | none => .thrown
    | some count => parseColumnDataOptions host rest { s with nMaxElements := count }
  | .o optarg :: rest, s => parseColumnDataOptions host rest { s with outputPath := optarg }
  | .h :: _, _ => .usage
  | .unrecognised :: _, _ => .usage

/-- The observable result of a run of `dump_column_data`: `destination` is the
output path when one was opened, `output` the lines written to it (or to the
standard output). -/
structure ColumnDataRun where
  ending : Ending
  datasetOpened : Bool
  destination : Option String
  output : List Line
  deriving DecidableEq, Repr

/-- Modelled from the spec: the macro `R__ASSERT` belongs to the library; the
specification gives the end of a run that reaches `R__ASSERT(false)`, which is
UnsupportedType with exit code 1, and exit code 0 for a run that returns. -/
def Flow.ending : Flow → Ending
  | .next => .exit 0
  | .returned => .exit 0
  | .asserted => .exit 1
  | .outOfFuel => .unfinished

/-- `main` of `dump_column_data.cxx`, on the options `getopt` delivers and the
operands `argv[optind ..]`. -/
def dumpColumnDataMain (host : Host) (fuel : Nat) (options : List ColumnDataOption)
    (operands : List String) : ColumnDataRun :=
  match parseColumnDataOptions host options ⟨0, ""⟩ with
  | .usage => ⟨.exit 0, false, none, []⟩
  | .thrown => ⟨.uncaught, false, none, []⟩
  | .settings s =>
    if operands.length != 3 then ⟨.exit 0, false, none, []⟩
    else if !s.outputPath.isEmpty && !host.has_parent_path s.outputPath then
      ⟨.exit 1, false, none, []⟩
    else
      let destination := if s.outputPath.isEmpty then none else some s.outputPath
      match operands with
      | [columnText, inputFile, ntupleName] =>
        match host.stoul columnText with
        | none => ⟨.uncaught, false, destination, []⟩
        | some columnId =>
          let source := host.Create ntupleName inputFile
          match DumpColumnData host.charIsSigned source columnId s.nMaxElements fuel with
          | none => ⟨.uncaught, true, destination, []⟩
          | some (flow, st) => ⟨flow.ending, true, destination, st.output⟩
      | _ => ⟨.exit 0, false, none, []⟩

/-! ## Stored datasets used as concrete inputs -/

/-- Modelled from the spec: the element byte width of a column type, which the
library keeps in its column element classes; the table of section 4.4 of the
specification (index 4/8, integers 1/2/4/8, floats 2/4/8, byte, char and bit 1,
none for the tagged-union discriminator). -/
def elementByteWidth : EColumnType → Option Nat
  | .kIndex32 | .kSplitIndex32 => some 4
  | .kIndex64 | .kSplitIndex64 => some 8
  | .kUInt8 | .kInt8 => some 1
  | .kUInt16 | .kSplitUInt16 | .kInt16 | .kSplitInt16 => some 2
  | .kUInt32 | .kSplitUInt32 | .kInt32 | .kSplitInt32 => some 4
  | .kUInt64 | .kSplitUInt64 | .kInt64 | .kSplitInt64 => some 8
  | .kReal16 => some 2
  | .kReal32 | .kSplitReal32 => some 4
  | .kReal64 | .kSplitReal64 => some 8
  | .kByte | .kChar | .kBit => some 1
  | .kSwitch => none

/-- A cluster as it is stored: for every column it contains, the pages of the
column with their stored bytes. -/
structure StoredCluster where
  fClusterId : Nat
  columns : List (Nat × List (RPageInfo × List Byte))

/-- The descriptor of a stored cluster. -/
def StoredCluster.descriptor (cluster : StoredCluster) : RClusterDescriptor :=
  ⟨cluster.fClusterId, cluster.columns.map (fun c => (c.1, c.2.map (fun p => p.1)))⟩

/-- Modelled from the spec: the Page Resolver of section 4.2, which the library
implements; the page of a range that covers a zero-based element offset. -/
def findPage : List (RPageInfo × List Byte) → Nat → Option (RPageInfo × List Byte)
  | [], _ => none
  | p :: rest, offset =>
    if offset < p.1.fNElements then some p else findPage rest (offset - p.1.fNElements)

/-- A page source over stored clusters whose pages are stored uncompressed:
`LoadSealedPage` resolves the locator with `findPage`, `UnsealPage` hands the
bytes on with the element width of the column type. -/
def storedSource (fieldZeroId : Nat) (fields : List RFieldDescriptor)
    (columns : List RColumnDescriptor) (groups : List Nat) (lookup : String → Option Nat)
    (clusters : List StoredCluster) : RPageSource where
  fDescriptor := ⟨fieldZeroId, fields, columns, clusters.map StoredCluster.descriptor, groups,
    lookup⟩
  LoadSealedPage := fun columnId index =>
    match clusters.find? (fun c => c.fClusterId == index.fClusterId) with
    | none => ⟨[], 0⟩
    | some cluster =>
      match cluster.columns.find? (fun c => c.1 == columnId) with
      | none => ⟨[], 0⟩
      | some range =>
        match findPage range.2 index.fIndex with
        | none => ⟨[], 0⟩
        | some p => ⟨p.2, p.1.fNElements⟩
  UnsealPage := fun sealedPage type _ =>
    ⟨sealedPage.fBuffer, (elementByteWidth type).getD 0⟩

/-- A dataset with one field `x` below the zero field, one column of the given
type and one cluster that holds the given pages of the column. -/
def singleColumnSource (type : EColumnType) (pages : List (RPageInfo × List Byte)) :
    RPageSource :=
  storedSource 0 [⟨0, "", [1]⟩, ⟨1, "x", []⟩] [⟨0, 1, 0, type⟩] [0]
    (fun name => if name == "x" then some 1 else none)
    [⟨0, [(0, pages)]⟩]

/-- A dataset with two collection fields `hits` and `tracks`, each with an item
field named `_0`, and a variant field `tag`; two clusters. -/
def exampleSource : RPageSource :=
  storedSource 0
    [⟨0, "", [1, 2, 5]⟩, ⟨1, "hits", [3]⟩, ⟨2, "tracks", [4]⟩, ⟨3, "_0", []⟩, ⟨4, "_0", []⟩,
      ⟨5, "tag", []⟩]
    [⟨1, 3, 0, .kUInt32⟩, ⟨0, 1, 0, .kIndex64⟩, ⟨4, 5, 0, .kSwitch⟩, ⟨3, 4, 0, .kReal32⟩,
      ⟨2, 2, 0, .kIndex64⟩]
    [0]
    (fun name =>
      if name == "hits" then some 1
      else if name == "tracks" then some 2
      else if name == "hits._0" then some 3
      else if name == "tracks._0" then some 4
      else if name == "tag" then some 5
      else none)
    [⟨0, [(0, [(⟨1⟩, [3, 0, 0, 0, 0, 0, 0, 0])]),
          (1, [(⟨2⟩, [1, 0, 0, 0, 2, 0, 0, 0]), (⟨1⟩, [0, 1, 0, 0])]),
          (2, [(⟨1⟩, [1, 0, 0, 0, 0, 0, 0, 0])]),
          (3, [(⟨1⟩, [0, 0, 128, 63])]),
          (4, [(⟨1⟩, [0, 0, 0, 0, 0, 0, 0, 0])])]⟩,
     ⟨1, [(0, [(⟨1⟩, [1, 0, 0, 0, 0, 0, 0, 0])]),
          (1, [(⟨1⟩, [255, 0, 0, 0])])]⟩]

/-- The field tree of `exampleSource`. -/
def exampleTree : FieldTree :=
  .node 0 [.node 1 [.node 3 []], .node 2 [.node 4 []], .node 5 []]

/-- A reader of plain decimal numbers, standing for `std::stoul` on the
example host. -/
def readDecimal (text : String) : Option Nat :=
  if text.data.isEmpty
      || text.data.any (fun c => decide (c.toNat < 48) || decide (57 < c.toNat)) then none
  else some (text.data.foldl (fun n c => 10 * n + (c.toNat - 48)) 0)

/-- A host on which `char` is signed, every path is a directory with a parent,
numbers are read in decimal and every dataset opened is `source`. -/
def hostWith (source : RPageSource) : Host where
  charIsSigned := true
  is_directory := fun _ => true
  has_parent_path := fun _ => true
  stoul := readDecimal
  Create := fun _ _ => source
  serializer := ⟨fun _ => [], fun _ _ => [], fun _ => []⟩

/-! ## Theorems: `DumpColumnData`, the lines written -/

/-- Every type other than `kSwitch` has a case of the `switch` that writes a line. -/
theorem decodeElement_isSome (cs : Bool) (type : EColumnType) (h : type ≠ .kSwitch)
    (buff : List Byte) (i : Nat) : ∃ line, decodeElement cs type buff i = some line := by
  cases type <;> first | exact absurd rfl h | exact ⟨_, rfl⟩

/-- No element, no line. -/
theorem pageLinesFrom_zero (cs : Bool) (type : EColumnType) (page : RPage) (i : Nat) :
    pageLinesFrom cs type page i 0 = [] := by
  simp [pageLinesFrom]

/-- The lines of `count + 1` elements: the line of the first, then the rest. -/
theorem pageLinesFrom_succ (cs : Bool) (type : EColumnType) (page : RPage) (i n : Nat)
    (line : Line) (h : decodeElement cs type page.fBuffer (i * page.fElementSize) = some line) :
    pageLinesFrom cs type page i (n + 1) = line :: pageLinesFrom cs type page (i + 1) n := by
  simp [pageLinesFrom, List.range'_succ, List.filterMap_cons, h]

/-- A decodable page yields one line per element. -/
theorem length_pageLinesFrom (cs : Bool) (type : EColumnType) (h : type ≠ .kSwitch)
    (page : RPage) : ∀ (n i : Nat), (pageLinesFrom cs type page i n).length = n := by
  intro n
  induction n with
  | zero => intro i; simp [pageLinesFrom_zero]
  | succ n ih =>
    intro i
    obtain ⟨line, hl⟩ := decodeElement_isSome cs type h page.fBuffer (i * page.fElementSize)
    rw [pageLinesFrom_succ cs type page i n line hl, List.length_cons, ih]

/-- The `while` loop over a page of `i + n` elements, entered at element `i`
with enough fuel, emits the lines of the remaining `n` elements up to the
maximum. -/
theorem decodePage_emits (cs : Bool) (type : EColumnType) (K : Nat) (page : RPage)
    (hT : type ≠ .kSwitch) :
    ∀ (n i fuel : Nat) (st : DumpState),
      page.GetNBytes = (i + n) * page.fElementSize → 0 < page.fElementSize →
      page.GetNBytes < 2 ^ 32 →
      st.elementsProcessed ≤ K → st.elementsProcessed + n < 2 ^ 64 → n < fuel →
      Emits K st (pageLinesFrom cs type page i n)
        (decodePage cs type K page fuel (i * page.fElementSize) st) := by
  intro n
  induction n with
  | zero =>
    intro i fuel st hB hw h32 hK h64 hf
    obtain ⟨f, rfl⟩ : ∃ f, fuel = f + 1 := ⟨fuel - 1, by omega⟩
    have hlt : ¬ (i * page.fElementSize < page.GetNBytes) := by
      rw [hB]; simp
    simp [decodePage, hlt, Emits, pageLinesFrom_zero]
  | succ n ih =>
    intro i fuel st hB hw h32 hK h64 hf
    obtain ⟨f, rfl⟩ : ∃ f, fuel = f + 1 := ⟨fuel - 1, by omega⟩
    have hlt : i * page.fElementSize < page.GetNBytes := by
      rw [hB]
      exact Nat.mul_lt_mul_of_pos_right (by omega) hw
    have hmod : (st.elementsProcessed + 1) % 2 ^ 64 = st.elementsProcessed + 1 :=
      Nat.mod_eq_of_lt (by omega)
    obtain ⟨line, hl⟩ := decodeElement_isSome cs type hT page.fBuffer (i * page.fElementSize)
    have hlen := length_pageLinesFrom cs type hT page (n + 1) i
    by_cases hlim : st.elementsProcessed + 1 > K
    · have hz : K - st.elementsProcessed = 0 := by omega
      have hrun : decodePage cs type K page (f + 1) (i * page.fElementSize) st
          = (.returned, { st with elementsProcessed := st.elementsProcessed + 1 }) := by
        simp only [decodePage, hlt, hmod, hlim, if_true]
      rw [hrun]
      refine ⟨?_, Or.inr ⟨?_, rfl⟩⟩
      · simp [hz]
      · rw [hlen, hz]; omega
    · have hnext : (i * page.fElementSize + page.fElementSize) % 2 ^ 32
          = (i + 1) * page.fElementSize := by
        have hle : (i + 1) * page.fElementSize ≤ page.GetNBytes := by
          rw [hB]; exact Nat.mul_le_mul_right _ (by omega)
        rw [Nat.add_mul, Nat.one_mul] at hle ⊢
        exact Nat.mod_eq_of_lt (by omega)
      have hB2 : page.GetNBytes = (i + 1 + n) * page.fElementSize := by
        rw [hB]; congr 1; omega
      have step := ih (i + 1) f
        { elementsProcessed := st.elementsProcessed + 1
          output := st.output ++ [line]
          loads := st.loads
          reads := st.reads ++ (bytesRead type (i * page.fElementSize)).map
            (ByteRead.mk page.GetNBytes) }
        hB2 hw h32 (by simp; omega) (by simp; omega) (by omega)
      have hrun : decodePage cs type K page (f + 1) (i * page.fElementSize) st
          = decodePage cs type K page f ((i + 1) * page.fElementSize)
            { elementsProcessed := st.elementsProcessed + 1
              output := st.output ++ [line]
              loads := st.loads
              reads := st.reads ++ (bytesRead type (i * page.fElementSize)).map
                (ByteRead.mk page.GetNBytes) } := by
        simp only [decodePage, hlt, hmod, hlim, hl, hnext, if_true, if_false]
      rw [hrun, pageLinesFrom_succ cs type page i n line hl]
      obtain ⟨hout, hcase⟩ := step
      have hsub : K - st.elementsProcessed = (K - (st.elementsProcessed + 1)) + 1 := by omega
      refine ⟨?_, ?_⟩
      · rw [hout, hsub, List.take_succ_cons]; simp
      · rcases hcase with ⟨h1, h2, h3⟩ | ⟨h1, h2⟩
        · left
          refine ⟨?_, h2, ?_⟩
          · simp only [List.length_cons]; simp at h1; omega
          · rw [h3]; simp only [List.length_cons]; omega
        · right
          refine ⟨?_, h2⟩
          simp only [List.length_cons]; simp at h1; omega

/-- Two parts of a run, the first of which ran to its end, compose. -/
theorem Emits.then_next {K : Nat} {st s1 : DumpState} {l1 l2 : List Line}
    {r2 : Flow × DumpState} (h1 : Emits K st l1 (.next, s1))
    (h2 : Emits K s1 l2 r2) : Emits K st (l1 ++ l2) r2 := by
  obtain ⟨hout1, hc1⟩ := h1
  obtain ⟨hout2, hc2⟩ := h2
  rcases hc1 with ⟨hlen, -, he⟩ | ⟨-, hfl⟩
  · simp only at hout1 he
    have htake : List.take (K - st.elementsProcessed) (l1 ++ l2)
        = l1 ++ List.take (K - s1.elementsProcessed) l2 := by
      rw [List.take_append_eq_append_take, List.take_of_length_le hlen, he]
      congr 2
      omega
    refine ⟨?_, ?_⟩
    · rw [hout2, hout1, htake, List.take_of_length_le hlen, List.append_assoc]
    · rcases hc2 with ⟨a, b, c⟩ | ⟨a, b⟩
      · left
        refine ⟨?_, b, ?_⟩
        · rw [List.length_append]; omega
        · rw [c, he, List.length_append]; omega
      · right
        refine ⟨?_, b⟩
        rw [List.length_append]; omega
  · cases hfl

/-- A part of a run that stopped stays stopped whatever would have followed. -/
theorem Emits.then_stop {K : Nat} {st s1 : DumpState} {l1 : List Line} {flow : Flow}
    (l2 : List Line) (h1 : Emits K st l1 (flow, s1)) (hflow : flow ≠ .next) :
    Emits K st (l1 ++ l2) (flow, s1) := by
  obtain ⟨hout1, hc1⟩ := h1
  rcases hc1 with ⟨-, hfl, -⟩ | ⟨hlt, hfl⟩
  · exact absurd hfl hflow
  · refine ⟨?_, Or.inr ⟨?_, hfl⟩⟩
    · rw [hout1, List.take_append_of_le_length (Nat.le_of_lt hlt)]
    · rw [List.length_append]; omega

/-- After a part that ran to its end the counter has grown by its lines and is
still within the maximum. -/
theorem Emits.next_le {K : Nat} {st s1 : DumpState} {l1 : List Line}
    (h1 : Emits K st l1 (.next, s1)) (hK : st.elementsProcessed ≤ K) :
    s1.elementsProcessed ≤ K ∧ s1.elementsProcessed = st.elementsProcessed + l1.length := by
  obtain ⟨-, hc1⟩ := h1
  rcases hc1 with ⟨hlen, -, he⟩ | ⟨-, hfl⟩
  · simp only at he
    exact ⟨by omega, he⟩
  · cases hfl

/-- The pages of a non-empty range: the first page, then the rest one page
further. -/
theorem rangePages_cons (src : RPageSource) (columnId : Nat) (type : EColumnType)
    (clusterId : Nat) (pageInfo : RPageInfo) (rest : List RPageInfo) (start : Nat) :
    rangePages src columnId type clusterId (pageInfo :: rest) start
      = (pageInfo, loadPage src columnId type ⟨clusterId, start⟩)
        :: rangePages src columnId type clusterId rest (start + pageInfo.fNElements) := rfl

/-- The pages of a range carry the page infos of the range. -/
theorem rangePages_counts (src : RPageSource) (columnId : Nat) (type : EColumnType)
    (clusterId : Nat) : ∀ (pages : List RPageInfo) (start : Nat),
    (rangePages src columnId type clusterId pages start).map (fun p => p.1.fNElements)
      = pages.map (fun p => p.fNElements) := by
  intro pages
  induction pages with
  | nil => intro start; rfl
  | cons pageInfo rest ih =>
    intro start
    rw [rangePages_cons, List.map_cons, List.map_cons, ih]

/-- The loop over the pages of a range emits the lines of those pages up to the
maximum. -/
theorem dumpPageRange_emits (cs : Bool) (src : RPageSource) (columnId : Nat)
    (type : EColumnType) (K fuel clusterId : Nat) (hT : type ≠ .kSwitch) :
    ∀ (pages : List RPageInfo) (start : Nat) (st : DumpState),
      (∀ p ∈ rangePages src columnId type clusterId pages start,
        PageSized p ∧ p.1.fNElements < fuel) →
      st.elementsProcessed ≤ K →
      st.elementsProcessed + (pages.map (fun p => p.fNElements)).sum < 2 ^ 64 →
      start + (pages.map (fun p => p.fNElements)).sum < 2 ^ 64 →
      Emits K st
        ((rangePages src columnId type clusterId pages start).flatMap (fun p =>
          pageLinesFrom cs type p.2 0 p.1.fNElements))
        (dumpPageRange cs src columnId type K fuel clusterId pages start st) := by
  intro pages
  induction pages with
  | nil =>
    intro start st _ _ _ _
    simp [dumpPageRange, rangePages, Emits]
  | cons pageInfo rest ih =>
    intro start st hP hK h64 hS
    rw [rangePages_cons] at hP ⊢
    rw [List.map_cons, List.sum_cons] at h64 hS
    obtain ⟨⟨hB, hw, h32⟩, hf⟩ := hP _ (List.mem_cons_self _ _)
    simp only at hB hw h32 hf
    have hpage := decodePage_emits cs type K
      (loadPage src columnId type ⟨clusterId, start⟩) hT pageInfo.fNElements 0 fuel
      { st with loads := st.loads ++ [⟨columnId, ⟨clusterId, start⟩, true⟩,
          ⟨columnId, ⟨clusterId, start⟩, false⟩] }
      (by rw [hB]; simp) hw h32 hK (by simp only; omega) hf
    rw [Nat.zero_mul] at hpage
    have hmod : (start + pageInfo.fNElements) % 2 ^ 64 = start + pageInfo.fNElements :=
      Nat.mod_eq_of_lt (by omega)
    rw [List.flatMap_cons]
    rcases hr : decodePage cs type K (loadPage src columnId type ⟨clusterId, start⟩) fuel 0
      { st with loads := st.loads ++ [⟨columnId, ⟨clusterId, start⟩, true⟩,
          ⟨columnId, ⟨clusterId, start⟩, false⟩] } with ⟨flow, s1⟩
    rw [hr] at hpage
    have hpage2 : Emits K st (pageLinesFrom cs type
        (loadPage src columnId type ⟨clusterId, start⟩) 0 pageInfo.fNElements) (flow, s1) := hpage
    have hlen := length_pageLinesFrom cs type hT
      (loadPage src columnId type ⟨clusterId, start⟩) pageInfo.fNElements 0
    by_cases hflow : flow = .next
    · subst hflow
      obtain ⟨hle, he⟩ := hpage2.next_le hK
      rw [hlen] at he
      have hrest := ih (start + pageInfo.fNElements) s1
        (fun p hp => hP p (List.mem_cons_of_mem _ hp)) hle (by omega) (by omega)
      have hrun : dumpPageRange cs src columnId type K fuel clusterId (pageInfo :: rest) start st
          = dumpPageRange cs src columnId type K fuel clusterId rest
              (start + pageInfo.fNElements) s1 := by
        simp only [dumpPageRange, loadPage] at hr ⊢
        rw [hr, hmod]
      rw [hrun]
      exact hpage2.then_next hrest
    · have hrun : dumpPageRange cs src columnId type K fuel clusterId (pageInfo :: rest) start st
          = (flow, s1) := by
        simp only [dumpPageRange, loadPage] at hr ⊢
        rw [hr]
        cases flow <;> first | exact absurd rfl hflow | rfl
      rw [hrun]
      exact hpage2.then_stop _ hflow

/-- A summand is at most the sum. -/
theorem count_le_sum {α : Type} (f : α → Nat) : ∀ (l : List α) (a : α), a ∈ l →
    f a ≤ (l.map f).sum := by
  intro l
  induction l with
  | nil => intro a ha; cases ha
  | cons b rest ih =>
    intro a ha
    rw [List.map_cons, List.sum_cons]
    rcases List.mem_cons.mp ha with rfl | h
    · omega
    · have := ih a h; omega

/-- Decodable pages yield as many lines as they have elements. -/
theorem length_lines (cs : Bool) (type : EColumnType) (hT : type ≠ .kSwitch) :
    ∀ (ps : List (RPageInfo × RPage)),
    (ps.flatMap (fun p => pageLinesFrom cs type p.2 0 p.1.fNElements)).length
      = (ps.map (fun p => p.1.fNElements)).sum := by
  intro ps
  induction ps with
  | nil => rfl
  | cons p rest ih =>
    rw [List.flatMap_cons, List.length_append, List.map_cons, List.sum_cons, ih,
      length_pageLinesFrom cs type hT]

/-- The loop over the clusters emits the lines of all pages of the column up to
the maximum. -/
theorem dumpClusters_emits (cs : Bool) (src : RPageSource) (columnId : Nat)
    (type : EColumnType) (K fuel : Nat) (hT : type ≠ .kSwitch) :
    ∀ (clusters : List RClusterDescriptor) (st : DumpState),
      (∀ p ∈ clusters.flatMap (clusterPages src columnId type),
        PageSized p ∧ p.1.fNElements < fuel) →
      st.elementsProcessed ≤ K →
      st.elementsProcessed +
        ((clusters.flatMap (clusterPages src columnId type)).map
          (fun p => p.1.fNElements)).sum < 2 ^ 64 →
      Emits K st
        ((clusters.flatMap (clusterPages src columnId type)).flatMap (fun p =>
          pageLinesFrom cs type p.2 0 p.1.fNElements))
        (dumpClusters cs src columnId type K fuel clusters st) := by
  intro clusters
  induction clusters with
  | nil =>
    intro st _ _ _
    simp [dumpClusters, Emits]
  | cons cluster rest ih =>
    intro st hP hK h64
    rw [List.flatMap_cons] at hP h64 ⊢
    rw [List.map_append, List.sum_append] at h64
    rw [List.flatMap_append]
    cases hrange : cluster.GetPageRange columnId with
    | none =>
      have hnil : clusterPages src columnId type cluster = [] := by
        simp [clusterPages, hrange]
      rw [hnil] at hP h64 ⊢
      have hrun : dumpClusters cs src columnId type K fuel (cluster :: rest) st
          = dumpClusters cs src columnId type K fuel rest st := by
        simp only [dumpClusters, hrange]
      rw [hrun, List.flatMap_nil, List.nil_append]
      exact ih st (fun p hp => hP p (by simpa using hp)) hK (by simpa using h64)
    | some pages =>
      have hcl : clusterPages src columnId type cluster
          = rangePages src columnId type cluster.fClusterId pages 0 := by
        simp [clusterPages, hrange]
      rw [hcl] at hP h64 ⊢
      rw [rangePages_counts] at h64
      have hrangeEmits := dumpPageRange_emits cs src columnId type K fuel cluster.fClusterId hT
        pages 0 st (fun p hp => hP p (List.mem_append_left _ hp)) hK (by omega) (by omega)
      have hlen := length_lines cs type hT
        (rangePages src columnId type cluster.fClusterId pages 0)
      rw [rangePages_counts] at hlen
      rcases hr : dumpPageRange cs src columnId type K fuel cluster.fClusterId pages 0 st
        with ⟨flow, s1⟩
      rw [hr] at hrangeEmits
      by_cases hflow : flow = .next
      · subst hflow
        obtain ⟨hle, he⟩ := hrangeEmits.next_le hK
        rw [hlen] at he
        have hrest := ih s1 (fun p hp => hP p (List.mem_append_right _ hp)) hle (by omega)
        have hrun : dumpClusters cs src columnId type K fuel (cluster :: rest) st
            = dumpClusters cs src columnId type K fuel rest s1 := by
          simp only [dumpClusters, hrange, hr]
        rw [hrun]
        exact hrangeEmits.then_next hrest
      · have hrun : dumpClusters cs src columnId type K fuel (cluster :: rest) st
            = (flow, s1) := by
          simp only [dumpClusters, hrange, hr]
          cases flow <;> first | exact absurd rfl hflow | rfl
        rw [hrun]
        exact hrangeEmits.then_stop _ hflow

/-- Claim C2: for a column with a decode rule whose pages each hold element
count times a positive element size bytes (within the 32-bit range of
`buffIdx`, the total count within the 64-bit range of `elementsProcessed`),
`DumpColumnData` with maximum `K` and enough fuel for the longest page ends,
and its output is the first `min K N` values of the column in cluster order
then page order: the cut may fall inside a page, and `K = 0` gives no line. -/
theorem DumpColumnData_emits_first_min (charIsSigned : Bool) (src : RPageSource)
    (columnId : Nat) (column : RColumnDescriptor) (K fuel : Nat)
    (hcol : src.fDescriptor.GetColumnDescriptor columnId = some column)
    (hrule : column.fType ≠ .kSwitch)
    (hpages : ∀ p ∈ columnPages src columnId column.fType, PageSized p)
    (h64 : columnElements src columnId column.fType < 2 ^ 64)
    (hfuel : columnElements src columnId column.fType < fuel) :
    ∃ flow st, DumpColumnData charIsSigned src columnId K fuel = some (flow, st) ∧
      st.output = (columnLines charIsSigned src columnId column.fType).take K ∧
      st.output.length = min K (columnElements src columnId column.fType) ∧
      flow = (if columnElements src columnId column.fType ≤ K then Flow.next
        else Flow.returned) := by
  have hlen : (columnLines charIsSigned src columnId column.fType).length
      = columnElements src columnId column.fType :=
    length_lines charIsSigned column.fType hrule _
  have hE := dumpClusters_emits charIsSigned src columnId column.fType K fuel hrule
    src.fDescriptor.fClusterDescriptors ⟨0, [], [], []⟩
    (fun p hp => ⟨hpages p hp, lt_of_le_of_lt
      (count_le_sum (fun p : RPageInfo × RPage => p.1.fNElements) _ p hp) hfuel⟩)
    (Nat.zero_le _) (by simpa [columnPages, columnElements] using h64)
  rcases hr : dumpClusters charIsSigned src columnId column.fType K fuel
    src.fDescriptor.fClusterDescriptors ⟨0, [], [], []⟩ with ⟨flow, st⟩
  rw [hr] at hE
  obtain ⟨hout, hcase⟩ := hE
  simp only [List.nil_append, Nat.sub_zero] at hout hcase
  change st.output = List.take K (columnLines charIsSigned src columnId column.fType) at hout
  change ((columnLines charIsSigned src columnId column.fType).length ≤ K ∧ _ ∨
    K < (columnLines charIsSigned src columnId column.fType).length ∧ _) at hcase
  rw [hlen] at hcase
  refine ⟨flow, st, ?_, hout, ?_, ?_⟩
  · simp only [DumpColumnData, hcol, hr]
  · rw [hout, List.length_take, hlen]
  · rcases hcase with ⟨h1, h2, -⟩ | ⟨h1, h2⟩
    · rw [if_pos h1]; exact h2
    · rw [if_neg (by omega)]; exact h2

/-- Claim C2, at column 1 of `exampleSource` with a maximum of one element: the
cut falls inside the first page, which holds two. -/
theorem DumpColumnData_emits_first_min_witness :
    ∃ flow st, DumpColumnData true exampleSource 1 1 5 = some (flow, st) ∧
      st.output = (columnLines true exampleSource 1 EColumnType.kUInt32).take 1 ∧
      st.output.length = min 1 (columnElements exampleSource 1 EColumnType.kUInt32) ∧
      flow = (if columnElements exampleSource 1 EColumnType.kUInt32 ≤ 1 then Flow.next
        else Flow.returned) :=
  DumpColumnData_emits_first_min true exampleSource 1 ⟨1, 3, 0, .kUInt32⟩ 1 5
    (by decide) (by decide) (by decide) (by decide) (by decide)

/-! ### Page offsets and loads -/

/-- The range found for a column in a cluster of a descriptor whose ranges fit
holds fewer than `2 ^ 64` elements. -/
theorem range_sum_lt (desc : RNTupleDescriptor) (hfit : RangesFit desc)
    (cluster : RClusterDescriptor) (hc : cluster ∈ desc.fClusterDescriptors) (columnId : Nat)
    (pages : List RPageInfo) (hr : cluster.GetPageRange columnId = some pages) :
    (pages.map (fun p => p.fNElements)).sum < 2 ^ 64 := by
  unfold RClusterDescriptor.GetPageRange at hr
  cases hf : cluster.fPageRanges.find? (fun r => r.1 == columnId) with
  | none => rw [hf] at hr; cases hr
  | some r =>
    rw [hf] at hr
    have hr2 : r.2 = pages := by simpa using hr
    have := hfit cluster hc r (List.mem_of_find?_eq_some hf)
    rwa [hr2] at this

/-- The running offsets of the accumulation are the sums of the counts of the
pages before. -/
theorem pageOffsets_eq : ∀ (pages : List RPageInfo) (start : Nat),
    pageOffsets pages start
      = (List.range pages.length).map (fun k => start + offsetOfPage pages k) := by
  intro pages
  induction pages with
  | nil => intro start; rfl
  | cons pageInfo rest ih =>
    intro start
    rw [pageOffsets, ih, List.length_cons, List.range_succ_eq_map, List.map_cons, List.map_map]
    congr 1
    apply List.map_congr_left
    intro k _
    simp [offsetOfPage, Nat.add_assoc]

/-- The loads of a range, written with the running offsets. -/
theorem rangeLoads_eq (columnId clusterId : Nat) (pages : List RPageInfo) :
    rangeLoads columnId clusterId pages
      = (pageOffsets pages 0).flatMap (fun o => loadPair columnId clusterId o) := by
  rw [pageOffsets_eq, List.flatMap_map]
  simp [rangeLoads]

/-- The page loop of `DumpPages` loads every page of the range once, page after
page, at the running offsets. -/
theorem dumpRangePages_loads (src : RPageSource) (outputPath : String) (clusterId : Nat)
    (column : RColumnInfo) :
    ∀ (pages : List RPageInfo) (clusterIdx pageNum : Nat) (st : PagesDump),
      clusterIdx + (pages.map (fun p => p.fNElements)).sum < 2 ^ 64 →
      (dumpRangePages src outputPath clusterId column pages clusterIdx pageNum st).loads
        = st.loads ++ (pageOffsets pages clusterIdx).flatMap
            (fun o => loadPair column.fColumnDesc.fPhysicalId clusterId o) := by
  intro pages
  induction pages with
  | nil => intro clusterIdx pageNum st _; simp [dumpRangePages, pageOffsets]
  | cons pageInfo rest ih =>
    intro clusterIdx pageNum st hS
    rw [List.map_cons, List.sum_cons] at hS
    have hmod : (clusterIdx + pageInfo.fNElements) % 2 ^ 64 = clusterIdx + pageInfo.fNElements :=
      Nat.mod_eq_of_lt (by omega)
    simp only [dumpRangePages, hmod]
    rw [ih _ _ _ (by omega)]
    simp [pageOffsets, loadPair, List.flatMap_cons]

/-- The column loop of `DumpPages` loads the ranges of the columns the cluster
contains, column after column. -/
theorem dumpClusterColumns_loads (src : RPageSource) (outputPath : String)
    (cluster : RClusterDescriptor)
    (hfit : ∀ columnId pages, cluster.GetPageRange columnId = some pages →
      (pages.map (fun p => p.fNElements)).sum < 2 ^ 64) :
    ∀ (columns : List RColumnInfo) (st : PagesDump),
      (dumpClusterColumns src outputPath cluster columns st).loads
        = st.loads ++ columns.flatMap
            (fun column => clusterLoads column.fColumnDesc.fPhysicalId cluster) := by
  intro columns
  induction columns with
  | nil => intro st; simp [dumpClusterColumns]
  | cons column rest ih =>
    intro st
    cases hrange : cluster.GetPageRange column.fColumnDesc.fPhysicalId with
    | none =>
      have hhead : clusterLoads column.fColumnDesc.fPhysicalId cluster = [] := by
        simp [clusterLoads, hrange]
      simp only [dumpClusterColumns, hrange, List.flatMap_cons]
      rw [ih, hhead, List.nil_append]
    | some pages =>
      have hsum := hfit _ _ hrange
      have hhead : clusterLoads column.fColumnDesc.fPhysicalId cluster
          = (pageOffsets pages 0).flatMap
            (fun o => loadPair column.fColumnDesc.fPhysicalId cluster.fClusterId o) := by
        simp [clusterLoads, hrange, rangeLoads_eq]
      simp only [dumpClusterColumns, hrange, List.flatMap_cons]
      rw [ih, dumpRangePages_loads _ _ _ _ _ _ _ _ (by omega), hhead, List.append_assoc]

/-- The cluster loop of `DumpPages` loads cluster after cluster. -/
theorem dumpPagesClusters_loads (src : RPageSource) (outputPath : String)
    (columns : List RColumnInfo) :
    ∀ (clusters : List RClusterDescriptor) (st : PagesDump),
      (∀ cluster ∈ clusters, ∀ columnId pages, cluster.GetPageRange columnId = some pages →
        (pages.map (fun p => p.fNElements)).sum < 2 ^ 64) →
      (dumpPagesClusters src outputPath columns clusters st).loads
        = st.loads ++ clusters.flatMap (fun cluster => columns.flatMap
            (fun column => clusterLoads column.fColumnDesc.fPhysicalId cluster)) := by
  intro clusters
  induction clusters with
  | nil => intro st _; simp [dumpPagesClusters]
  | cons cluster rest ih =>
    intro st hfit
    simp only [dumpPagesClusters, List.flatMap_cons]
    rw [ih _ (fun c hc => hfit c (List.mem_cons_of_mem _ hc)),
      dumpClusterColumns_loads src outputPath cluster (hfit cluster (List.mem_cons_self _ _)),
      List.append_assoc]

/-- The `while` loop loads nothing. -/
theorem decodePage_loads (cs : Bool) (type : EColumnType) (K : Nat) (page : RPage) :
    ∀ (fuel buffIdx : Nat) (st : DumpState),
      (decodePage cs type K page fuel buffIdx st).2.loads = st.loads := by
  intro fuel
  induction fuel with
  | zero => intro buffIdx st; rfl
  | succ fuel ih =>
    intro buffIdx st
    simp only [decodePage]
    split
    · split
      · rfl
      · split
        · rfl
        · rw [ih]
    · rfl

/-- The page loop of `DumpColumnData` loads an initial part of the range, all of
it when it runs to its end. -/
theorem dumpPageRange_loads (cs : Bool) (src : RPageSource) (columnId : Nat)
    (type : EColumnType) (K fuel clusterId : Nat) :
    ∀ (pages : List RPageInfo) (start : Nat) (st : DumpState),
      start + (pages.map (fun p => p.fNElements)).sum < 2 ^ 64 →
      LoadsWithin st ((pageOffsets pages start).flatMap (fun o => loadPair columnId clusterId o))
        (dumpPageRange cs src columnId type K fuel clusterId pages start st) := by
  intro pages
  induction pages with
  | nil =>
    intro start st _
    exact ⟨[], List.prefix_rfl, by simp [dumpPageRange], fun _ => rfl⟩
  | cons pageInfo rest ih =>
    intro start st hS
    rw [List.map_cons, List.sum_cons] at hS
    have hmod : (start + pageInfo.fNElements) % 2 ^ 64 = start + pageInfo.fNElements :=
      Nat.mod_eq_of_lt (by omega)
    have hl := decodePage_loads cs type K
      (src.UnsealPage (src.LoadSealedPage columnId ⟨clusterId, start⟩) type columnId) fuel 0
      { st with loads := st.loads ++ [⟨columnId, ⟨clusterId, start⟩, true⟩,
          ⟨columnId, ⟨clusterId, start⟩, false⟩] }
    rcases hr : decodePage cs type K
      (src.UnsealPage (src.LoadSealedPage columnId ⟨clusterId, start⟩) type columnId) fuel 0
      { st with loads := st.loads ++ [⟨columnId, ⟨clusterId, start⟩, true⟩,
          ⟨columnId, ⟨clusterId, start⟩, false⟩] } with ⟨flow, s1⟩
    rw [hr] at hl
    simp only at hl
    have hexp : (pageOffsets (pageInfo :: rest) start).flatMap
          (fun o => loadPair columnId clusterId o)
        = loadPair columnId clusterId start
          ++ (pageOffsets rest (start + pageInfo.fNElements)).flatMap
            (fun o => loadPair columnId clusterId o) := by
      simp [pageOffsets, List.flatMap_cons]
    rw [hexp]
    by_cases hflow : flow = .next
    · subst hflow
      obtain ⟨done, hpre, hloads, hall⟩ := ih (start + pageInfo.fNElements) s1 (by omega)
      refine ⟨loadPair columnId clusterId start ++ done, ?_, ?_, ?_⟩
      · exact (List.prefix_append_right_inj _).mpr hpre
      · simp only [dumpPageRange, hr, hmod]
        rw [hloads, hl]
        simp [loadPair]
      · intro hn
        simp only [dumpPageRange, hr, hmod] at hn
        rw [hall hn]
    · refine ⟨loadPair columnId clusterId start, List.prefix_append _ _, ?_, ?_⟩
      · have hrun : dumpPageRange cs src columnId type K fuel clusterId (pageInfo :: rest)
            start st = (flow, s1) := by
          simp only [dumpPageRange, hr]
          cases flow <;> first | exact absurd rfl hflow | rfl
        rw [hrun]
        simpa [loadPair] using hl
      · intro hn
        have hrun : dumpPageRange cs src columnId type K fuel clusterId (pageInfo :: rest)
            start st = (flow, s1) := by
          simp only [dumpPageRange, hr]
          cases flow <;> first | exact absurd rfl hflow | rfl
        rw [hrun] at hn
        exact absurd hn hflow

/-- The cluster loop of `DumpColumnData` loads an initial part of the pages of
the column, all of them when it runs to its end. -/
theorem dumpClusters_loads (cs : Bool) (src : RPageSource) (columnId : Nat)
    (type : EColumnType) (K fuel : Nat) :
    ∀ (clusters : List RClusterDescriptor) (st : DumpState),
      (∀ cluster ∈ clusters, ∀ pages, cluster.GetPageRange columnId = some pages →
        (pages.map (fun p => p.fNElements)).sum < 2 ^ 64) →
      LoadsWithin st (clusters.flatMap (clusterLoads columnId))
        (dumpClusters cs src columnId type K fuel clusters st) := by
  intro clusters
  induction clusters with
  | nil =>
    intro st _
    exact ⟨[], List.prefix_rfl, by simp [dumpClusters], fun _ => rfl⟩
  | cons cluster rest ih =>
    intro st hfit
    have hfitRest : ∀ c ∈ rest, ∀ pages, c.GetPageRange columnId = some pages →
        (pages.map (fun p => p.fNElements)).sum < 2 ^ 64 :=
      fun c hc => hfit c (List.mem_cons_of_mem _ hc)
    rw [List.flatMap_cons]
    cases hrange : cluster.GetPageRange columnId with
    | none =>
      have hnil : clusterLoads columnId cluster = [] := by simp [clusterLoads, hrange]
      rw [hnil, List.nil_append]
      simp only [dumpClusters, hrange]
      exact ih st hfitRest
    | some pages =>
      have hcl : clusterLoads columnId cluster
          = (pageOffsets pages 0).flatMap (fun o => loadPair columnId cluster.fClusterId o) := by
        simp [clusterLoads, hrange, rangeLoads_eq]
      rw [hcl]
      have hsum := hfit cluster (List.mem_cons_self _ _) pages hrange
      obtain ⟨done, hpre, hloads, hall⟩ := dumpPageRange_loads cs src columnId type K fuel
        cluster.fClusterId pages 0 st (by omega)
      rcases hr : dumpPageRange cs src columnId type K fuel cluster.fClusterId pages 0 st
        with ⟨flow, s1⟩
      rw [hr] at hloads hall
      simp only at hloads hall
      by_cases hflow : flow = .next
      · subst hflow
        have hd := hall rfl
        subst hd
        obtain ⟨done2, hpre2, hloads2, hall2⟩ := ih s1 hfitRest
        refine ⟨_ ++ done2, (List.prefix_append_right_inj _).mpr hpre2, ?_, ?_⟩
        · simp only [dumpClusters, hrange, hr]
          rw [hloads2, hloads, List.append_assoc]
        · intro hn
          simp only [dumpClusters, hrange, hr] at hn
          rw [hall2 hn]
      · have hrun : dumpClusters cs src columnId type K fuel (cluster :: rest) st
            = (flow, s1) := by
          simp only [dumpClusters, hrange, hr]
          cases flow <;> first | exact absurd rfl hflow | rfl
        rw [hrun]
        exact ⟨done, hpre.trans (List.prefix_append _ _), hloads,
          fun hn => absurd hn hflow⟩

/-- Past the limit no page is loaded. -/
theorem slotsUpTo_gt (limit : Nat) (slots : List PageSlot) (before : Nat)
    (h : limit < before) : slotsUpTo limit slots before = [] := by
  cases slots with
  | nil => rfl
  | cons s rest => simp only [slotsUpTo, if_neg (Nat.not_le.mpr h)]

/-- The loaded pages of two lists in a row. -/
theorem slotsUpTo_append (limit : Nat) : ∀ (a b : List PageSlot) (before : Nat),
    slotsUpTo limit (a ++ b) before
      = slotsUpTo limit a before
        ++ slotsUpTo limit b (before + (a.map (fun s => s.count)).sum) := by
  intro a
  induction a with
  | nil => intro b before; simp [slotsUpTo]
  | cons s rest ih =>
    intro b before
    by_cases hb : before ≤ limit
    · rw [List.cons_append, slotsUpTo, if_pos hb, slotsUpTo, if_pos hb, ih, List.map_cons,
        List.sum_cons, List.cons_append, Nat.add_assoc]
    · have hgt : limit < before + ((s :: rest).map (fun s => s.count)).sum := by omega
      simp only [List.cons_append, slotsUpTo, if_neg hb, List.nil_append]
      exact (slotsUpTo_gt limit b _ hgt).symm

/-- The offset of page `k + 1` of a range that starts with `p`. -/
theorem offsetOfPage_succ (p : RPageInfo) (rest : List RPageInfo) (k : Nat) :
    offsetOfPage (p :: rest) (k + 1) = p.fNElements + offsetOfPage rest k := by
  simp [offsetOfPage]

/-- The accumulated slots of a range are its pages at the offsets of the
specification, shifted by the start. -/
theorem rangeSlotsFrom_eq (clusterId : Nat) : ∀ (pages : List RPageInfo) (start : Nat),
    rangeSlotsFrom clusterId pages start
      = List.zipWith (fun p k =>
          (⟨clusterId, start + offsetOfPage pages k, p.fNElements⟩ : PageSlot))
          pages (List.range pages.length) := by
  intro pages
  induction pages with
  | nil => intro start; rfl
  | cons p rest ih =>
    intro start
    rw [rangeSlotsFrom, ih, List.length_cons, List.range_succ_eq_map, List.zipWith_cons_cons,
      List.zipWith_map_right]
    simp [offsetOfPage, Nat.add_assoc]

/-- The slots of a range, by accumulation from offset 0. -/
theorem rangeSlots_eq (clusterId : Nat) (pages : List RPageInfo) :
    rangeSlots clusterId pages = rangeSlotsFrom clusterId pages 0 := by
  rw [rangeSlotsFrom_eq]
  simp [rangeSlots]

/-- The slots of a range carry the element counts of its pages. -/
theorem rangeSlotsFrom_counts (clusterId : Nat) : ∀ (pages : List RPageInfo) (start : Nat),
    (rangeSlotsFrom clusterId pages start).map (fun s => s.count)
      = pages.map (fun p => p.fNElements) := by
  intro pages
  induction pages with
  | nil => intro start; rfl
  | cons p rest ih => intro start; simp only [rangeSlotsFrom, List.map_cons, ih]

/-- The elements before page `j + 1` of a list that starts with `s`. -/
theorem elementsBefore_succ (s : PageSlot) (rest : List PageSlot) (j : Nat) :
    elementsBefore (s :: rest) (j + 1) = s.count + elementsBefore rest j := by
  simp [elementsBefore]

/-- Selecting the pages by the number of elements before them is taking the
initial pages up to the limit. -/
theorem filter_slots_eq (limit : Nat) : ∀ (slots : List PageSlot) (before : Nat),
    ((slots.zip (List.range slots.length)).filter
      (fun sj => decide (before + elementsBefore slots sj.2 ≤ limit))).map (fun sj => sj.1)
      = slotsUpTo limit slots before := by
  intro slots
  induction slots with
  | nil => intro before; rfl
  | cons s rest ih =>
    intro before
    have htail : (((rest.zip (List.range rest.length)).map
          (fun sj => (sj.1, sj.2 + 1))).filter
          (fun sj => decide (before + elementsBefore (s :: rest) sj.2 ≤ limit))).map
          (fun sj => sj.1)
        = slotsUpTo limit rest (before + s.count) := by
      rw [← ih (before + s.count), List.filter_map, List.map_map]
      congr 1
      apply congrArg₂ _ _ rfl
      funext sj
      simp only [Function.comp, elementsBefore_succ, Nat.add_assoc]
    rw [List.length_cons, List.range_succ_eq_map, List.zip_cons_cons, List.zip_map_right]
    have hzero : elementsBefore (s :: rest) 0 = 0 := by simp [elementsBefore]
    have hmap : (rest.zip (List.range rest.length)).map (Prod.map id Nat.succ)
        = (rest.zip (List.range rest.length)).map (fun sj => (sj.1, sj.2 + 1)) := rfl
    rw [hmap]
    by_cases hb : before ≤ limit
    · rw [List.filter_cons_of_pos (by simpa [hzero] using hb), List.map_cons, htail]
      simp only [slotsUpTo, if_pos hb]
    · rw [List.filter_cons_of_neg (by simpa [hzero] using hb), htail]
      simp only [slotsUpTo, if_neg hb]
      exact slotsUpTo_gt limit rest _ (by omega)

/-- The pages preceded by at most `limit` elements, by accumulation. -/
theorem loadedSlots_eq (limit : Nat) (slots : List PageSlot) :
    loadedSlots limit slots = slotsUpTo limit slots 0 := by
  rw [← filter_slots_eq limit slots 0]
  simp [loadedSlots]

/-- The `while` loop on a sized page of a column with a decode rule, with
respect to the maximum count. -/
theorem decodePage_step (cs : Bool) (type : EColumnType) (K fuel : Nat)
    (p : RPageInfo × RPage) (hT : type ≠ .kSwitch) (hp : PageSized p)
    (hf : p.1.fNElements < fuel) (st : DumpState) (hK : st.elementsProcessed ≤ K)
    (h64 : st.elementsProcessed + p.1.fNElements < 2 ^ 64) :
    PageStep K p.1.fNElements st (decodePage cs type K p.2 fuel 0 st) := by
  obtain ⟨hB, hw, h32⟩ := hp
  have h := decodePage_emits cs type K p.2 hT p.1.fNElements 0 fuel st
    (by rw [hB]; simp) hw h32 hK h64 hf
  rw [Nat.zero_mul] at h
  have hlen := length_pageLinesFrom cs type hT p.2 p.1.fNElements 0
  obtain ⟨-, hcase⟩ := h
  rw [hlen] at hcase
  rcases hcase with ⟨h1, h2, h3⟩ | ⟨h1, h2⟩
  · exact Or.inl ⟨h2, h3, by omega⟩
  · refine Or.inr ⟨?_, by omega⟩
    rw [h2]
    exact fun h => Flow.noConfusion h

/-- The `while` loop on a sized page of a `kSwitch` column before any element
was counted: it runs to its end on an empty page and ends the run on any
other. -/
theorem decodePage_switch_step (cs : Bool) (K fuel : Nat) (p : RPageInfo × RPage)
    (hp : PageSized p) (hf : 1 ≤ fuel) (st : DumpState) (he : st.elementsProcessed ≤ 0) :
    PageStep 0 p.1.fNElements st (decodePage cs .kSwitch K p.2 fuel 0 st) := by
  obtain ⟨hB, hw, -⟩ := hp
  obtain ⟨f, rfl⟩ : ∃ f, fuel = f + 1 := ⟨fuel - 1, by omega⟩
  have he0 : st.elementsProcessed = 0 := by omega
  by_cases hn : p.1.fNElements = 0
  · have hb : ¬ (0 < p.2.GetNBytes) := by rw [hB, hn]; simp
    have hrun : decodePage cs .kSwitch K p.2 (f + 1) 0 st = (.next, st) := by
      simp only [decodePage, hb, if_false]
    rw [hrun]
    exact Or.inl ⟨rfl, by rw [hn]; rfl, by omega⟩
  · have hb : 0 < p.2.GetNBytes := by
      rw [hB]; exact Nat.mul_pos (Nat.pos_of_ne_zero hn) hw
    refine Or.inr ⟨?_, by omega⟩
    simp only [decodePage, hb, if_true, decodeElement]
    split <;> exact fun h => Flow.noConfusion h

/-- The page loop of `DumpColumnData` loads exactly the pages of the range that
lie within the limit, when the `while` loop behaves on each page as `PageStep`
says. -/
theorem dumpPageRange_loads_exactly (cs : Bool) (src : RPageSource) (columnId : Nat)
    (type : EColumnType) (K fuel clusterId limit : Nat) :
    ∀ (pages : List RPageInfo) (start : Nat) (st : DumpState),
      (∀ p ∈ rangePages src columnId type clusterId pages start, ∀ s : DumpState,
        s.elementsProcessed ≤ limit → s.elementsProcessed + p.1.fNElements < 2 ^ 64 →
        PageStep limit p.1.fNElements s (decodePage cs type K p.2 fuel 0 s)) →
      st.elementsProcessed ≤ limit →
      st.elementsProcessed + (pages.map (fun p => p.fNElements)).sum < 2 ^ 64 →
      start + (pages.map (fun p => p.fNElements)).sum < 2 ^ 64 →
      LoadsExactly limit columnId st (rangeSlotsFrom clusterId pages start)
        (dumpPageRange cs src columnId type K fuel clusterId pages start st) := by
  intro pages
  induction pages with
  | nil =>
    intro start st _ hle _ _
    refine ⟨by simp [dumpPageRange, rangeSlotsFrom, slotsUpTo], Or.inl ⟨rfl, ?_, ?_⟩⟩
    · simp [dumpPageRange, rangeSlotsFrom]
    · simpa [rangeSlotsFrom] using hle
  | cons pageInfo rest ih =>
    intro start st hstep hle h64 hS
    rw [rangePages_cons] at hstep
    rw [List.map_cons, List.sum_cons] at h64 hS
    have hmod : (start + pageInfo.fNElements) % 2 ^ 64 = start + pageInfo.fNElements :=
      Nat.mod_eq_of_lt (by omega)
    have hl := decodePage_loads cs type K
      (src.UnsealPage (src.LoadSealedPage columnId ⟨clusterId, start⟩) type columnId) fuel 0
      { st with loads := st.loads ++ [⟨columnId, ⟨clusterId, start⟩, true⟩,
          ⟨columnId, ⟨clusterId, start⟩, false⟩] }
    have hpage := hstep _ (List.mem_cons_self _ _)
      { st with loads := st.loads ++ [⟨columnId, ⟨clusterId, start⟩, true⟩,
          ⟨columnId, ⟨clusterId, start⟩, false⟩] } hle (by simp only; omega)
    simp only [loadPage] at hpage
    rcases hr : decodePage cs type K
      (src.UnsealPage (src.LoadSealedPage columnId ⟨clusterId, start⟩) type columnId) fuel 0
      { st with loads := st.loads ++ [⟨columnId, ⟨clusterId, start⟩, true⟩,
          ⟨columnId, ⟨clusterId, start⟩, false⟩] } with ⟨flow, s1⟩
    rw [hr] at hl hpage
    simp only at hl
    have hslots : slotsUpTo limit (rangeSlotsFrom clusterId (pageInfo :: rest) start)
          st.elementsProcessed
        = ⟨clusterId, start, pageInfo.fNElements⟩
          :: slotsUpTo limit (rangeSlotsFrom clusterId rest (start + pageInfo.fNElements))
              (st.elementsProcessed + pageInfo.fNElements) := by
      rw [rangeSlotsFrom, slotsUpTo, if_pos hle]
    have hcount : ((rangeSlotsFrom clusterId (pageInfo :: rest) start).map
          (fun s => s.count)).sum
        = pageInfo.fNElements + ((rangeSlotsFrom clusterId rest
            (start + pageInfo.fNElements)).map (fun s => s.count)).sum := by
      rw [rangeSlotsFrom, List.map_cons, List.sum_cons]
    rcases hpage with ⟨hn, he, hlim⟩ | ⟨hn, hlim⟩
    · simp only at hn he hlim
      subst hn
      have hrun : dumpPageRange cs src columnId type K fuel clusterId (pageInfo :: rest) start st
          = dumpPageRange cs src columnId type K fuel clusterId rest
              (start + pageInfo.fNElements) s1 := by
        simp only [dumpPageRange, hr, hmod]
      obtain ⟨hloads, hstep2⟩ := ih (start + pageInfo.fNElements) s1
        (fun p hp => hstep p (List.mem_cons_of_mem _ hp)) (by omega) (by omega) (by omega)
      rw [hrun]
      refine ⟨?_, ?_⟩
      · rw [hloads, hl, hslots, he, List.flatMap_cons, List.append_assoc]
        rfl
      · rw [hcount]
        rcases hstep2 with ⟨a, b, c⟩ | ⟨a, b⟩
        · exact Or.inl ⟨a, by rw [b, he]; omega, by omega⟩
        · exact Or.inr ⟨a, by omega⟩
    · simp only at hn hlim
      have hrun : dumpPageRange cs src columnId type K fuel clusterId (pageInfo :: rest) start st
          = (flow, s1) := by
        simp only [dumpPageRange, hr]
        cases flow <;> first | exact absurd rfl hn | rfl
      rw [hrun]
      refine ⟨?_, Or.inr ⟨hn, by rw [hcount]; omega⟩⟩
      rw [hslots, slotsUpTo_gt limit _ _ hlim, List.flatMap_cons, List.flatMap_nil,
        List.append_nil]
      exact hl

/-- The cluster loop of `DumpColumnData` loads exactly the pages of the column
that lie within the limit. -/
theorem dumpClusters_loads_exactly (cs : Bool) (src : RPageSource) (columnId : Nat)
    (type : EColumnType) (K fuel limit : Nat) :
    ∀ (clusters : List RClusterDescriptor) (st : DumpState),
      (∀ p ∈ clusters.flatMap (clusterPages src columnId type), ∀ s : DumpState,
        s.elementsProcessed ≤ limit → s.elementsProcessed + p.1.fNElements < 2 ^ 64 →
        PageStep limit p.1.fNElements s (decodePage cs type K p.2 fuel 0 s)) →
      st.elementsProcessed ≤ limit →
      st.elementsProcessed +
        ((clusters.flatMap (clusterPages src columnId type)).map
          (fun p => p.1.fNElements)).sum < 2 ^ 64 →
      LoadsExactly limit columnId st (clusters.flatMap (clusterSlots columnId))
        (dumpClusters cs src columnId type K fuel clusters st) := by
  intro clusters
  induction clusters with
  | nil =>
    intro st _ hle _
    refine ⟨by simp [dumpClusters, slotsUpTo], Or.inl ⟨rfl, ?_, ?_⟩⟩
    · simp [dumpClusters]
    · simpa using hle
  | cons cluster rest ih =>
    intro st hstep hle h64
    rw [List.flatMap_cons] at hstep h64 ⊢
    rw [List.map_append, List.sum_append] at h64
    cases hrange : cluster.GetPageRange columnId with
    | none =>
      have hnil : clusterPages src columnId type cluster = [] := by
        simp [clusterPages, hrange]
      have hnil2 : clusterSlots columnId cluster = [] := by
        simp [clusterSlots, hrange]
      rw [hnil] at hstep h64
      rw [hnil2, List.nil_append]
      simp only [dumpClusters, hrange]
      exact ih st (fun p hp => hstep p (by simpa using hp)) hle (by simpa using h64)
    | some pages =>
      have hcl : clusterPages src columnId type cluster
          = rangePages src columnId type cluster.fClusterId pages 0 := by
        simp [clusterPages, hrange]
      have hcl2 : clusterSlots columnId cluster
          = rangeSlotsFrom cluster.fClusterId pages 0 := by
        simp [clusterSlots, hrange, rangeSlots_eq]
      rw [hcl] at hstep h64
      rw [rangePages_counts] at h64
      rw [hcl2]
      obtain ⟨hloads, hstep1⟩ := dumpPageRange_loads_exactly cs src columnId type K fuel
        cluster.fClusterId limit pages 0 st (fun p hp => hstep p (List.mem_append_left _ hp))
        hle (by omega) (by omega)
      rw [rangeSlotsFrom_counts] at hstep1
      rcases hr : dumpPageRange cs src columnId type K fuel cluster.fClusterId pages 0 st
        with ⟨flow, s1⟩
      rw [hr] at hloads hstep1
      simp only at hloads
      have hsum : ((rangeSlotsFrom cluster.fClusterId pages 0
            ++ rest.flatMap (clusterSlots columnId)).map (fun s => s.count)).sum
          = (pages.map (fun p => p.fNElements)).sum
            + ((rest.flatMap (clusterSlots columnId)).map (fun s => s.count)).sum := by
        rw [List.map_append, List.sum_append, rangeSlotsFrom_counts]
      rw [LoadsExactly, slotsUpTo_append, rangeSlotsFrom_counts, hsum, List.flatMap_append]
      rcases hstep1 with ⟨hn, he, hlim⟩ | ⟨hn, hlim⟩
      · simp only at hn he hlim
        subst hn
        have hrun : dumpClusters cs src columnId type K fuel (cluster :: rest) st
            = dumpClusters cs src columnId type K fuel rest s1 := by
          simp only [dumpClusters, hrange, hr]
        obtain ⟨hloads2, hstep2⟩ := ih s1
          (fun p hp => hstep p (List.mem_append_right _ hp)) (by omega) (by omega)
        rw [hrun]
        refine ⟨?_, ?_⟩
        · rw [hloads2, hloads, he, List.append_assoc]
        · rcases hstep2 with ⟨a, b, c⟩ | ⟨a, b⟩
          · exact Or.inl ⟨a, by rw [b, he]; omega, by omega⟩
          · exact Or.inr ⟨a, by omega⟩
      · simp only at hn hlim
        have hrun : dumpClusters cs src columnId type K fuel (cluster :: rest) st
            = (flow, s1) := by
          simp only [dumpClusters, hrange, hr]
          cases flow <;> first | exact absurd rfl hn | rfl
        rw [hrun]
        refine ⟨?_, Or.inr ⟨hn, by omega⟩⟩
        rw [slotsUpTo_gt limit _ _ hlim, List.flatMap_nil, List.append_nil]
        exact hloads

/-- The loads of the slots of a range are the loads at its running offsets. -/
theorem rangeSlotsFrom_loads (columnId clusterId : Nat) :
    ∀ (pages : List RPageInfo) (start : Nat),
      (rangeSlotsFrom clusterId pages start).flatMap (slotLoads columnId)
        = (pageOffsets pages start).flatMap (fun o => loadPair columnId clusterId o) := by
  intro pages
  induction pages with
  | nil => intro start; rfl
  | cons p rest ih =>
    intro start
    rw [rangeSlotsFrom, pageOffsets, List.flatMap_cons, List.flatMap_cons, ih]
    rfl

/-- The loads of a column in a cluster are the loads of its slots there. -/
theorem clusterLoads_eq_slots (columnId : Nat) (cluster : RClusterDescriptor) :
    clusterLoads columnId cluster
      = (clusterSlots columnId cluster).flatMap (slotLoads columnId) := by
  cases hrange : cluster.GetPageRange columnId with
  | none => simp [clusterLoads, clusterSlots, hrange]
  | some pages =>
    simp only [clusterLoads, clusterSlots, hrange]
    rw [rangeLoads_eq, rangeSlots_eq, rangeSlotsFrom_loads]

/-- On sized pages the `while` loop behaves as `PageStep` says with respect to
the limit of the column type. -/
theorem decodePage_step_limit (cs : Bool) (type : EColumnType) (K fuel : Nat)
    (p : RPageInfo × RPage) (hp : PageSized p) (hf : p.1.fNElements < fuel)
    (s : DumpState) (hle : s.elementsProcessed ≤ loadLimit type K)
    (h64 : s.elementsProcessed + p.1.fNElements < 2 ^ 64) :
    PageStep (loadLimit type K) p.1.fNElements s (decodePage cs type K p.2 fuel 0 s) := by
  by_cases hT : type = .kSwitch
  · subst hT
    have hl : loadLimit .kSwitch K = 0 := by simp [loadLimit]
    rw [hl] at hle ⊢
    exact decodePage_switch_step cs K fuel p hp (by omega) s hle
  · have hl : loadLimit type K = K := by simp [loadLimit, hT]
    rw [hl] at hle ⊢
    exact decodePage_step cs type K fuel p hT hp hf s hle h64
/-- Claim C4, as amended: in a descriptor whose ranges fit the `size_t` offset,
page `k` of a range is addressed at the sum of the element counts of pages
`0 .. k-1` (page 0 at offset 0).  `DumpPages` loads every page of every range
of the listed columns once (a sizing call and a filling call), in range order.
`DumpColumnData` addresses the pages at the same offsets, in cluster order then
range order, and what it has loaded is always an initial part of them, all of
them when the run reaches the end of the last cluster.  On a column whose
pages each hold element count times a positive element size bytes, the run
ends (given fuel for the longest page) and has loaded exactly the pages that
are preceded by at most `K` elements of the column, `K` being the maximum
count, and for a `kSwitch` column the pages preceded by no element. -/
theorem page_offsets_are_running_sums (src : RPageSource) (hfit : RangesFit src.fDescriptor) :
    (∀ pages : List RPageInfo, offsetOfPage pages 0 = 0) ∧
    (∀ (columns : List RColumnInfo) (outputPath : String),
      (DumpPages src columns outputPath).loads
        = src.fDescriptor.fClusterDescriptors.flatMap (fun cluster => columns.flatMap
            (fun column => clusterLoads column.fColumnDesc.fPhysicalId cluster))) ∧
    (∀ columnId : Nat,
      src.fDescriptor.fClusterDescriptors.flatMap (clusterLoads columnId)
        = (columnSlots src.fDescriptor columnId).flatMap (slotLoads columnId)) ∧
    (∀ (charIsSigned : Bool) (columnId K fuel : Nat) (flow : Flow) (st : DumpState),
      DumpColumnData charIsSigned src columnId K fuel = some (flow, st) →
      st.loads <+: src.fDescriptor.fClusterDescriptors.flatMap (clusterLoads columnId) ∧
      (flow = .next →
        st.loads = src.fDescriptor.fClusterDescriptors.flatMap (clusterLoads columnId))) ∧
    (∀ (charIsSigned : Bool) (columnId : Nat) (column : RColumnDescriptor) (K fuel : Nat),
      src.fDescriptor.GetColumnDescriptor columnId = some column →
      (∀ p ∈ columnPages src columnId column.fType, PageSized p) →
      columnElements src columnId column.fType < 2 ^ 64 →
      columnElements src columnId column.fType < fuel →
      ∃ flow st, DumpColumnData charIsSigned src columnId K fuel = some (flow, st) ∧
        st.loads = (loadedSlots (loadLimit column.fType K)
          (columnSlots src.fDescriptor columnId)).flatMap (slotLoads columnId)) := by
  have hfit2 : ∀ cluster ∈ src.fDescriptor.fClusterDescriptors, ∀ columnId pages,
      cluster.GetPageRange columnId = some pages →
      (pages.map (fun p => p.fNElements)).sum < 2 ^ 64 :=
    fun cluster hc columnId pages hr =>
      range_sum_lt src.fDescriptor hfit cluster hc columnId pages hr
  refine ⟨fun pages => by simp [offsetOfPage], ?_, ?_, ?_, ?_⟩
  · intro columns outputPath
    rw [DumpPages, dumpPagesClusters_loads src outputPath columns _ _ hfit2]
    simp
  · intro columnId
    rw [columnSlots, List.flatMap_assoc]
    apply List.flatMap_congr
    intro cluster _
    exact clusterLoads_eq_slots columnId cluster
  · intro cs columnId K fuel flow st hrun
    unfold DumpColumnData at hrun
    cases hcol : src.fDescriptor.GetColumnDescriptor columnId with
    | none => rw [hcol] at hrun; cases hrun
    | some column =>
      rw [hcol] at hrun
      simp only [Option.some.injEq] at hrun
      obtain ⟨done, hpre, hloads, hall⟩ := dumpClusters_loads cs src columnId column.fType K fuel
        src.fDescriptor.fClusterDescriptors ⟨0, [], [], []⟩
        (fun cluster hc pages hr => hfit2 cluster hc columnId pages hr)
      rw [hrun] at hloads hall
      simp only [List.nil_append] at hloads hall
      rw [hloads]
      exact ⟨hpre, fun hn => hall hn⟩
  · intro cs columnId column K fuel hcol hpages h64 hfuel
    have hex := dumpClusters_loads_exactly cs src columnId column.fType K fuel
      (loadLimit column.fType K) src.fDescriptor.fClusterDescriptors ⟨0, [], [], []⟩
      (fun p hp s hle hs => decodePage_step_limit cs column.fType K fuel p (hpages p hp)
        (lt_of_le_of_lt (count_le_sum (fun p : RPageInfo × RPage => p.1.fNElements) _ p hp)
          hfuel) s hle hs)
      (Nat.zero_le _) (by simpa [columnPages, columnElements] using h64)
    rcases hr : dumpClusters cs src columnId column.fType K fuel
      src.fDescriptor.fClusterDescriptors ⟨0, [], [], []⟩ with ⟨flow, st⟩
    rw [hr] at hex
    obtain ⟨hloads, -⟩ := hex
    simp only [List.nil_append] at hloads
    refine ⟨flow, st, ?_, ?_⟩
    · simp only [DumpColumnData, hcol, hr]
    · rw [hloads, loadedSlots_eq]
      rfl

/-- Claim C4 as amended, at column 1 of `exampleSource`, whose pages hold 2, 1
and 1 elements: with a maximum of 3 all three pages are loaded (the last one is
preceded by 3 elements), with a maximum of 0 only the first. -/
theorem page_offsets_are_running_sums_witness :
    (∃ flow st, DumpColumnData true exampleSource 1 3 5 = some (flow, st) ∧
      st.loads = (loadedSlots (loadLimit .kUInt32 3)
        (columnSlots exampleSource.fDescriptor 1)).flatMap (slotLoads 1)) ∧
    loadedSlots (loadLimit .kUInt32 3) (columnSlots exampleSource.fDescriptor 1)
      = [⟨0, 0, 2⟩, ⟨0, 2, 1⟩, ⟨1, 0, 1⟩] ∧
    loadedSlots (loadLimit .kUInt32 0) (columnSlots exampleSource.fDescriptor 1)
      = [⟨0, 0, 2⟩] ∧
    loadedSlots (loadLimit .kSwitch 3) (columnSlots exampleSource.fDescriptor 4)
      = [⟨0, 0, 1⟩] :=
  ⟨(page_offsets_are_running_sums exampleSource (by decide)).2.2.2.2 true 1
      ⟨1, 3, 0, .kUInt32⟩ 3 5 (by decide) (by decide) (by decide) (by decide),
    by decide, by decide, by decide⟩

/-- Claim C4, as it is written, fails for `DumpColumnData`: with a maximum count
of 0 on column 1 of `exampleSource`, whose range in cluster 0 has two pages,
the run returns after loading the first page only; the second page, at offset
2, is never loaded. -/
theorem DumpColumnData_stops_loading_at_limit :
    ∃ st, DumpColumnData true exampleSource 1 0 10 = some (.returned, st) ∧
      st.loads = loadPair 1 0 0 ∧
      clusterLoads 1 ⟨0, [(1, [⟨2⟩, ⟨1⟩])]⟩ = loadPair 1 0 0 ++ loadPair 1 0 2 ∧
      ¬ (∀ call ∈ loadPair 1 0 2, call ∈ st.loads) := by
  refine ⟨_, rfl, ?_, ?_, ?_⟩ <;> decide

/-! ### `kSwitch` columns -/

/-- The `while` loop on a page of a `kSwitch` column, before any element was
counted and with a maximum of at least one. -/
theorem decodePage_switch (cs : Bool) (K : Nat) (hK : 1 ≤ K) (page : RPage) (fuel : Nat)
    (st : DumpState) (he : st.elementsProcessed = 0) :
    decodePage cs .kSwitch K page (fuel + 1) 0 st
      = if 0 < page.GetNBytes then (.asserted, { st with elementsProcessed := 1 })
        else (.next, st) := by
  have hlim : ¬ ((0 + 1) % 2 ^ 64 > K) := by
    have : (0 + 1) % 2 ^ 64 = 1 := by norm_num
    omega
  by_cases hb : 0 < page.GetNBytes
  · simp only [decodePage, hb, he, hlim, if_true, if_false, decodeElement]
    rfl
  · simp only [decodePage, hb, if_false]

/-- The page loop on a `kSwitch` column before any element was counted: it
asserts at the first page that holds bytes and passes over empty pages. -/
theorem dumpPageRange_switch (cs : Bool) (src : RPageSource) (columnId K fuel clusterId : Nat)
    (hK : 1 ≤ K) :
    ∀ (pages : List RPageInfo) (start : Nat) (st : DumpState),
      st.elementsProcessed = 0 → st.output = [] →
      start + (pages.map (fun p => p.fNElements)).sum < 2 ^ 64 →
      let r := dumpPageRange cs src columnId .kSwitch K (fuel + 1) clusterId pages start st
      r.2.output = [] ∧
      ((r.1 = .asserted ∧ ∃ p ∈ rangePages src columnId .kSwitch clusterId pages start,
          0 < p.2.GetNBytes) ∨
       (r.1 = .next ∧ r.2.elementsProcessed = 0 ∧
          ∀ p ∈ rangePages src columnId .kSwitch clusterId pages start, ¬ 0 < p.2.GetNBytes)) := by
  intro pages
  induction pages with
  | nil =>
    intro start st he ho _
    simp [dumpPageRange, rangePages, he, ho]
  | cons pageInfo rest ih =>
    intro start st he ho hS
    rw [List.map_cons, List.sum_cons] at hS
    have hmod : (start + pageInfo.fNElements) % 2 ^ 64 = start + pageInfo.fNElements :=
      Nat.mod_eq_of_lt (by omega)
    have hpage := decodePage_switch cs K hK
      (src.UnsealPage (src.LoadSealedPage columnId ⟨clusterId, start⟩) .kSwitch columnId) fuel
      { st with loads := st.loads ++ [⟨columnId, ⟨clusterId, start⟩, true⟩,
          ⟨columnId, ⟨clusterId, start⟩, false⟩] } he
    rw [rangePages_cons]
    by_cases hb : 0 < (loadPage src columnId .kSwitch ⟨clusterId, start⟩).GetNBytes
    · have hb2 := hb
      unfold loadPage at hb2
      rw [if_pos hb2] at hpage
      simp only [dumpPageRange, hpage]
      exact ⟨ho, Or.inl ⟨trivial, _, List.mem_cons_self _ _, hb⟩⟩
    · have hb2 := hb
      unfold loadPage at hb2
      rw [if_neg hb2] at hpage
      simp only [dumpPageRange, hpage, hmod]
      have hrest := ih (start + pageInfo.fNElements)
        { st with loads := st.loads ++ [⟨columnId, ⟨clusterId, start⟩, true⟩,
          ⟨columnId, ⟨clusterId, start⟩, false⟩] } he ho (by omega)
      obtain ⟨h1, h2⟩ := hrest
      refine ⟨h1, ?_⟩
      rcases h2 with ⟨ha, p, hp, hpb⟩ | ⟨hn, he2, hall⟩
      · exact Or.inl ⟨ha, p, List.mem_cons_of_mem _ hp, hpb⟩
      · refine Or.inr ⟨hn, he2, ?_⟩
        intro p hp
        rcases List.mem_cons.mp hp with rfl | hp
        · exact hb
        · exact hall p hp

/-- The cluster loop on a `kSwitch` column asserts when some page of the column
holds bytes. -/
theorem dumpClusters_switch (cs : Bool) (src : RPageSource) (columnId K fuel : Nat)
    (hK : 1 ≤ K) :
    ∀ (clusters : List RClusterDescriptor) (st : DumpState),
      st.elementsProcessed = 0 → st.output = [] →
      (∀ cluster ∈ clusters, ∀ pages, cluster.GetPageRange columnId = some pages →
        (pages.map (fun p => p.fNElements)).sum < 2 ^ 64) →
      (∃ p ∈ clusters.flatMap (clusterPages src columnId .kSwitch), 0 < p.2.GetNBytes) →
      let r := dumpClusters cs src columnId .kSwitch K (fuel + 1) clusters st
      r.2.output = [] ∧ r.1 = .asserted := by
  intro clusters
  induction clusters with
  | nil =>
    intro st _ _ _ hex
    obtain ⟨p, hp, -⟩ := hex
    simp at hp
  | cons cluster rest ih =>
    intro st he ho hfit hex
    have hfitRest : ∀ c ∈ rest, ∀ pages, c.GetPageRange columnId = some pages →
        (pages.map (fun p => p.fNElements)).sum < 2 ^ 64 :=
      fun c hc => hfit c (List.mem_cons_of_mem _ hc)
    obtain ⟨p, hp, hpb⟩ := hex
    rw [List.flatMap_cons, List.mem_append] at hp
    cases hrange : cluster.GetPageRange columnId with
    | none =>
      have hnil : clusterPages src columnId .kSwitch cluster = [] := by
        simp [clusterPages, hrange]
      rw [hnil] at hp
      simp only [dumpClusters, hrange]
      refine ih st he ho hfitRest ⟨p, ?_, hpb⟩
      rcases hp with hp | hp
      · cases hp
      · exact hp
    | some pages =>
      have hcl : clusterPages src columnId .kSwitch cluster
          = rangePages src columnId .kSwitch cluster.fClusterId pages 0 := by
        simp [clusterPages, hrange]
      rw [hcl] at hp
      have hsum := hfit cluster (List.mem_cons_self _ _) pages hrange
      have hr := dumpPageRange_switch cs src columnId K fuel cluster.fClusterId hK pages 0 st
        he ho (by omega)
      simp only at hr
      rcases hrun : dumpPageRange cs src columnId .kSwitch K (fuel + 1) cluster.fClusterId
        pages 0 st with ⟨flow, s1⟩
      rw [hrun] at hr
      obtain ⟨hout, hcase⟩ := hr
      rcases hcase with ⟨ha, -⟩ | ⟨hn, he2, hall⟩
      · simp only at ha hout
        subst ha
        simp only [dumpClusters, hrange, hrun]
        exact ⟨hout, trivial⟩
      · simp only at hn hout he2
        subst hn
        simp only [dumpClusters, hrange, hrun]
        refine ih s1 he2 hout hfitRest ⟨p, ?_, hpb⟩
        rcases hp with hp | hp
        · exact absurd hpb (hall p hp)
        · exact hp

/-- Claim C8, as amended: when the maximum count is at least 1 and some page of
the column holds at least one byte, `DumpColumnData` on a `kSwitch` column
reaches `R__ASSERT(false)`: no line is written and the run ends in failure
(exit code 1). -/
theorem DumpColumnData_switch_asserts (charIsSigned : Bool) (src : RPageSource)
    (columnId : Nat) (column : RColumnDescriptor) (K fuel : Nat)
    (hcol : src.fDescriptor.GetColumnDescriptor columnId = some column)
    (hswitch : column.fType = .kSwitch)
    (hfit : RangesFit src.fDescriptor)
    (hK : 1 ≤ K) (hfuel : 1 ≤ fuel)
    (hdata : ∃ p ∈ columnPages src columnId .kSwitch, 0 < p.2.GetNBytes) :
    ∃ st, DumpColumnData charIsSigned src columnId K fuel = some (.asserted, st) ∧
      st.output = [] ∧ Flow.asserted.ending = Ending.exit 1 := by
  obtain ⟨f, rfl⟩ : ∃ f, fuel = f + 1 := ⟨fuel - 1, by omega⟩
  have h := dumpClusters_switch charIsSigned src columnId K f hK
    src.fDescriptor.fClusterDescriptors ⟨0, [], [], []⟩ rfl rfl
    (fun cluster hc pages hr => range_sum_lt src.fDescriptor hfit cluster hc columnId pages hr)
    hdata
  simp only at h
  rcases hrun : dumpClusters charIsSigned src columnId .kSwitch K (f + 1)
    src.fDescriptor.fClusterDescriptors ⟨0, [], [], []⟩ with ⟨flow, st⟩
  rw [hrun] at h
  obtain ⟨hout, hflow⟩ := h
  simp only at hout hflow
  subst hflow
  refine ⟨st, ?_, hout, rfl⟩
  simp only [DumpColumnData, hcol, hswitch, hrun]

/-- Claim C8 as amended, at the `kSwitch` column 4 of `exampleSource` with a
maximum of one element. -/
theorem DumpColumnData_switch_asserts_witness :
    ∃ st, DumpColumnData true exampleSource 4 1 1 = some (.asserted, st) ∧
      st.output = [] ∧ Flow.asserted.ending = Ending.exit 1 :=
  DumpColumnData_switch_asserts true exampleSource 4 ⟨4, 5, 0, .kSwitch⟩ 1 1
    (by decide) rfl (by decide) (by decide) (by decide) (by decide)

/-- Claim C8, as it is written, fails for the maximum count 0: on the `kSwitch`
column 4 of `exampleSource` the run returns at the first element, before the
`switch`, and ends normally with exit code 0. -/
theorem DumpColumnData_switch_limit_zero_returns :
    DumpColumnData true exampleSource 4 0 10
      = some (.returned, ⟨1, [], loadPair 4 0 0, []⟩) ∧
    Flow.returned.ending = Ending.exit 0 ∧
    (dumpColumnDataMain (hostWith exampleSource) 10 [] ["4", "f.root", "hits"]).ending
      = Ending.exit 0 := by decide

/-- The loop over the own columns of a field appends one entry per column. -/
theorem foldl_own (fieldDesc : RFieldDescriptor) :
    ∀ (cols : List RColumnDescriptor) (vec : List RColumnInfo),
    cols.foldl (fun v column => v ++ [RColumnInfo.make column fieldDesc]) vec
      = vec ++ cols.map (fun column => RColumnInfo.make column fieldDesc) := by
  intro cols
  induction cols with
  | nil => intro vec; simp
  | cons c rest ih => intro vec; simp [List.foldl_cons, ih]

/-- The descriptor found for an id carries that id. -/
theorem getField_id (desc : RNTupleDescriptor) (fieldId : Nat) (fd : RFieldDescriptor)
    (h : desc.GetFieldDescriptor fieldId = some fd) : fd.fFieldId = fieldId := by
  have := List.find?_some h
  simpa using this

/-! ### `CollectColumns` -/

mutual
/-- `AddColumnsFromField` on the root of a linked tree appends the pre-order of
the tree, once the fuel covers its height. -/
theorem add_tree (desc : RNTupleDescriptor) :
    ∀ (t : FieldTree) (fuel : Nat) (vec : List RColumnInfo) (fd : RFieldDescriptor),
      t.linkedIn desc = true → desc.GetFieldDescriptor t.fieldId = some fd →
      t.height ≤ fuel →
      AddColumnsFromField desc fuel vec fd = some (vec ++ preorderColumns desc t)
  | .node fieldId children, fuel, vec, fd, hl, hfd, hh => by
    simp only [FieldTree.fieldId] at hfd
    simp only [FieldTree.linkedIn, hfd, Bool.and_eq_true, beq_iff_eq] at hl
    simp only [FieldTree.height] at hh
    obtain ⟨f, rfl⟩ : ∃ f, fuel = f + 1 := ⟨fuel - 1, by omega⟩
    have hrec := add_list desc children f
      (vec ++ (desc.GetColumnIterable fd).map (fun column => RColumnInfo.make column fd))
      hl.2 (by omega)
    simp only [AddColumnsFromField, foldl_own, RNTupleDescriptor.GetFieldIterable, hl.1]
    rw [hrec]
    simp [preorderColumns, ownColumns, hfd]
/-- The loop over the child fields appends the pre-order of each child. -/
theorem add_list (desc : RNTupleDescriptor) :
    ∀ (ts : List FieldTree) (fuel : Nat) (vec : List RColumnInfo),
      FieldTree.linkedInList desc ts = true →
      FieldTree.heightOfList ts ≤ fuel →
      ((ts.map FieldTree.fieldId).filterMap desc.GetFieldDescriptor).foldlM
        (fun v field => AddColumnsFromField desc fuel v field) vec
        = some (vec ++ preorderOfList desc ts)
  | [], fuel, vec, _, _ => by
    simp [preorderOfList]
  | t :: ts, fuel, vec, hl, hh => by
    simp only [FieldTree.linkedInList, Bool.and_eq_true] at hl
    simp only [FieldTree.heightOfList] at hh
    have hex : ∃ fd, desc.GetFieldDescriptor t.fieldId = some fd := by
      cases t with
      | node fieldId children =>
        simp only [FieldTree.linkedIn, Bool.and_eq_true] at hl
        cases hg : desc.GetFieldDescriptor fieldId with
        | none => rw [hg] at hl; simp at hl
        | some fd => exact ⟨fd, by simpa [FieldTree.fieldId] using hg⟩
    obtain ⟨fd, hfd⟩ := hex
    have h1 := add_tree desc t fuel vec fd hl.1 hfd (by omega)
    have h2 := add_list desc ts fuel (vec ++ preorderColumns desc t) hl.2 (by omega)
    simp only [List.map_cons, List.filterMap_cons, hfd, List.foldlM_cons, h1]
    simp only [Option.bind_eq_bind, Option.some_bind] 
    rw [h2]
    simp [preorderOfList]
end

mutual
/-- The pre-order of a tree lists the own columns of its fields in the order of
its ids. -/
theorem preorder_eq_flatMap (desc : RNTupleDescriptor) :
    ∀ (t : FieldTree), preorderColumns desc t = t.ids.flatMap (ownColumns desc)
  | .node fieldId children => by
    simp only [preorderColumns, FieldTree.ids, List.flatMap_cons]
    rw [preorderOfList_eq_flatMap desc children]
/-- The same for a list of trees. -/
theorem preorderOfList_eq_flatMap (desc : RNTupleDescriptor) :
    ∀ (ts : List FieldTree),
      preorderOfList desc ts
        = (FieldTree.idsOfList ts).flatMap (ownColumns desc)
  | [] => by simp [preorderOfList, FieldTree.idsOfList]
  | t :: ts => by
    simp only [preorderOfList, FieldTree.idsOfList, List.flatMap_append]
    rw [preorder_eq_flatMap desc t, preorderOfList_eq_flatMap desc ts]
end

/-- The own columns of a field are recorded under that field. -/
theorem ownColumns_field (desc : RNTupleDescriptor) (fieldId : Nat) :
    ∀ c ∈ ownColumns desc fieldId, c.fFieldDesc.fFieldId = fieldId := by
  intro c hc
  unfold ownColumns at hc
  cases hfd : desc.GetFieldDescriptor fieldId with
  | none => rw [hfd] at hc; cases hc
  | some fd =>
    rw [hfd] at hc
    simp only [List.mem_map] at hc
    obtain ⟨col, -, rfl⟩ := hc
    exact getField_id desc fieldId fd hfd

mutual
/-- Every field of a linked tree has a descriptor. -/
theorem linked_ids (desc : RNTupleDescriptor) :
    ∀ (t : FieldTree), t.linkedIn desc = true →
      ∀ i ∈ t.ids, ∃ fd, desc.GetFieldDescriptor i = some fd
  | .node fieldId children, hl => by
    simp only [FieldTree.linkedIn, Bool.and_eq_true] at hl
    intro i hi
    simp only [FieldTree.ids, List.mem_cons] at hi
    rcases hi with rfl | hi
    · cases hg : desc.GetFieldDescriptor i with
      | none => rw [hg] at hl; simp at hl
      | some fd => exact ⟨fd, rfl⟩
    · exact linkedList_ids desc children hl.2 i hi
/-- The same for a list of trees. -/
theorem linkedList_ids (desc : RNTupleDescriptor) :
    ∀ (ts : List FieldTree), FieldTree.linkedInList desc ts = true →
      ∀ i ∈ FieldTree.idsOfList ts, ∃ fd, desc.GetFieldDescriptor i = some fd
  | [], _ => by
    intro i hi
    simp [FieldTree.idsOfList] at hi
  | t :: ts, hl => by
    simp only [FieldTree.linkedInList, Bool.and_eq_true] at hl
    intro i hi
    simp only [FieldTree.idsOfList, List.mem_append] at hi
    rcases hi with hi | hi
    · exact linked_ids desc t hl.1 i hi
    · exact linkedList_ids desc ts hl.2 i hi
end

/-- The own columns of a field are the entries of the column table with its
id. -/
theorem ownColumns_map (desc : RNTupleDescriptor) (fieldId : Nat)
    (h : ∃ fd, desc.GetFieldDescriptor fieldId = some fd) :
    (ownColumns desc fieldId).map (fun c => c.fColumnDesc)
      = desc.fColumnDescriptors.filter (fun c => c.fFieldId == fieldId) := by
  obtain ⟨fd, hfd⟩ := h
  have hid := getField_id desc fieldId fd hfd
  simp only [ownColumns, hfd, List.map_map, RNTupleDescriptor.GetColumnIterable, hid]
  have : ((fun c : RColumnInfo => c.fColumnDesc) ∘ fun column => RColumnInfo.make column fd)
      = id := by
    funext c; rfl
  rw [this, List.map_id]

/-- Grouping a table by distinct keys that cover it rearranges the table. -/
theorem flatMap_filter_perm (key : RColumnDescriptor → Nat) :
    ∀ (ids : List Nat) (cols : List RColumnDescriptor), ids.Nodup →
      (∀ c ∈ cols, key c ∈ ids) →
      (ids.flatMap (fun i => cols.filter (fun c => key c == i))).Perm cols := by
  intro ids
  induction ids with
  | nil =>
    intro cols _ hall
    cases cols with
    | nil => simp
    | cons c rest => exact absurd (hall c (List.mem_cons_self _ _)) (List.not_mem_nil _)
  | cons a rest ih =>
    intro cols hnd hall
    rw [List.nodup_cons] at hnd
    have hrest : rest.flatMap (fun i => cols.filter (fun c => key c == i))
        = rest.flatMap (fun i => (cols.filter (fun c => !(key c == a))).filter
            (fun c => key c == i)) := by
      apply List.flatMap_congr
      intro i hi
      rw [List.filter_filter]
      apply List.filter_congr
      intro c _
      have hia : i ≠ a := fun h => hnd.1 (h ▸ hi)
      by_cases hc : key c = i
      · simp [hc, hia]
      · simp [hc]
    rw [List.flatMap_cons, hrest]
    have hih := ih (cols.filter (fun c => !(key c == a))) hnd.2 (by
      intro c hc
      rw [List.mem_filter] at hc
      have hmem := hall c hc.1
      rcases List.mem_cons.mp hmem with h | h
      · simp [h] at hc
      · exact h)
    exact (List.Perm.append_left _ hih).trans (List.filter_append_perm _ cols)

/-- From the field at the root of a linked tree, `CollectColumns` returns the
pre-order of the tree once the fuel covers its height. -/
theorem collect_from (desc : RNTupleDescriptor) (t : FieldTree) (fuel : Nat) (name : String)
    (hlinked : t.linkedIn desc = true) (hfuel : t.height ≤ fuel)
    (hres : (if name.isEmpty then some desc.fFieldZeroId else desc.FindFieldId name)
      = some t.fieldId) :
    CollectColumns desc fuel name = .columns (preorderColumns desc t) := by
  have hex := linked_ids desc t hlinked t.fieldId (by
    cases t with
    | node fieldId children => simp [FieldTree.ids, FieldTree.fieldId])
  obtain ⟨fd, hfd⟩ := hex
  have hadd := add_tree desc t fuel [] fd hlinked hfd hfuel
  unfold CollectColumns
  simp only [hres, hfd, hadd, List.nil_append]

/-- Claim C3: for a well-formed descriptor (its fields form a finite tree rooted
at the zero field, every column belongs to one field of it) and fuel that
covers the height of the tree, `CollectColumns("")` returns the columns in
pre-order (for each field its own columns in stored order, then the results of
its children in child order), and the list holds every column of the
descriptor exactly once: it is a permutation of the column table. -/
theorem CollectColumns_all_preorder (desc : RNTupleDescriptor) (tree : FieldTree) (fuel : Nat)
    (hwf : WellFormed desc tree) (hfuel : tree.height ≤ fuel) :
    ∃ cols, CollectColumns desc fuel "" = .columns cols ∧
      cols = preorderColumns desc tree ∧
      (cols.map (fun c => c.fColumnDesc)).Perm desc.fColumnDescriptors := by
  obtain ⟨hroot, hlinked, hnodup, hcols⟩ := hwf
  refine ⟨preorderColumns desc tree, ?_, rfl, ?_⟩
  · have hempty : ("" : String).isEmpty = true := rfl
    exact collect_from desc tree fuel "" hlinked hfuel (by rw [hempty, if_pos rfl, hroot])
  · rw [preorder_eq_flatMap, List.map_flatMap]
    have hcongr : tree.ids.flatMap (fun i => (ownColumns desc i).map (fun c => c.fColumnDesc))
        = tree.ids.flatMap (fun i => desc.fColumnDescriptors.filter
            (fun c => c.fFieldId == i)) := by
      apply List.flatMap_congr
      intro i hi
      exact ownColumns_map desc i (linked_ids desc tree hlinked i hi)
    rw [hcongr]
    exact flatMap_filter_perm (fun c => c.fFieldId) tree.ids desc.fColumnDescriptors hnodup hcols

/-- Claim C3, at the descriptor of `exampleSource`, whose column table is not
stored in pre-order. -/
theorem CollectColumns_all_preorder_witness :
    ∃ cols, CollectColumns exampleSource.fDescriptor 3 "" = .columns cols ∧
      cols = preorderColumns exampleSource.fDescriptor exampleTree ∧
      (cols.map (fun c => c.fColumnDesc)).Perm exampleSource.fDescriptor.fColumnDescriptors :=
  CollectColumns_all_preorder exampleSource.fDescriptor exampleTree 3 (by decide) (by decide)

mutual
/-- A subtree of a linked tree is linked, no higher, and its ids are a
contiguous run of the ids of the tree. -/
theorem subtree_props (desc : RNTupleDescriptor) :
    ∀ (t s : FieldTree), s ∈ t.subtrees → t.linkedIn desc = true →
      s.linkedIn desc = true ∧ s.height ≤ t.height ∧ s.ids <:+: t.ids
  | .node fieldId children, s, hs, hl => by
    simp only [FieldTree.subtrees, List.mem_cons] at hs
    rcases hs with rfl | hs
    · exact ⟨hl, Nat.le_refl _, List.infix_refl _⟩
    · have hl2 := hl
      simp only [FieldTree.linkedIn, Bool.and_eq_true] at hl2
      obtain ⟨h1, h2, h3⟩ := subtreeList_props desc children s hs hl2.2
      refine ⟨h1, ?_, ?_⟩
      · simp only [FieldTree.height]; omega
      · simp only [FieldTree.ids]
        exact h3.trans (List.suffix_cons _ _).isInfix
/-- The same below a list of trees. -/
theorem subtreeList_props (desc : RNTupleDescriptor) :
    ∀ (ts : List FieldTree) (s : FieldTree), s ∈ FieldTree.subtreesOfList ts →
      FieldTree.linkedInList desc ts = true →
      s.linkedIn desc = true ∧ s.height ≤ FieldTree.heightOfList ts ∧
        s.ids <:+: FieldTree.idsOfList ts
  | [], s, hs, _ => by
    simp [FieldTree.subtreesOfList] at hs
  | t :: ts, s, hs, hl => by
    simp only [FieldTree.linkedInList, Bool.and_eq_true] at hl
    simp only [FieldTree.subtreesOfList, List.mem_append] at hs
    simp only [FieldTree.heightOfList, FieldTree.idsOfList]
    rcases hs with hs | hs
    · obtain ⟨h1, h2, h3⟩ := subtree_props desc t s hs hl.1
      exact ⟨h1, by omega, h3.trans (List.prefix_append _ _).isInfix⟩
    · obtain ⟨h1, h2, h3⟩ := subtreeList_props desc ts s hs hl.2
      exact ⟨h1, by omega, h3.trans (List.suffix_append _ _).isInfix⟩
end

/-- A contiguous run stays contiguous under `flatMap`. -/
theorem flatMap_infix {α β : Type} (f : α → List β) {a b : List α} (h : a <:+: b) :
    a.flatMap f <:+: b.flatMap f := by
  obtain ⟨pre, post, rfl⟩ := h
  rw [List.flatMap_append, List.flatMap_append]
  exact ⟨_, _, rfl⟩

/-- Keeping the columns of the fields in `inside` is keeping those fields. -/
theorem filter_flatMap_own (desc : RNTupleDescriptor) (inside : List Nat) :
    ∀ (ids : List Nat),
      (ids.flatMap (ownColumns desc)).filter (fun c => decide (c.fFieldDesc.fFieldId ∈ inside))
        = (ids.filter (fun i => decide (i ∈ inside))).flatMap (ownColumns desc) := by
  intro ids
  induction ids with
  | nil => rfl
  | cons i rest ih =>
    rw [List.flatMap_cons, List.filter_append, ih]
    by_cases hi : i ∈ inside
    · have hkeep : (ownColumns desc i).filter
          (fun c => decide (c.fFieldDesc.fFieldId ∈ inside)) = ownColumns desc i := by
        rw [List.filter_eq_self]
        intro c hc
        rw [ownColumns_field desc i c hc]
        simpa using hi
      rw [hkeep, List.filter_cons_of_pos (by simpa using hi), List.flatMap_cons]
    · have hdrop : (ownColumns desc i).filter
          (fun c => decide (c.fFieldDesc.fFieldId ∈ inside)) = [] := by
        rw [List.filter_eq_nil_iff]
        intro c hc
        rw [ownColumns_field desc i c hc]
        simpa using hi
      rw [hdrop, List.filter_cons_of_neg (by simpa using hi), List.nil_append]

/-- In a list without repetition, the members of a contiguous run are that
run. -/
theorem filter_mem_infix {l m : List Nat} (hnd : l.Nodup) (h : m <:+: l) :
    l.filter (fun i => decide (i ∈ m)) = m := by
  obtain ⟨pre, post, rfl⟩ := h
  rw [List.nodup_append] at hnd
  obtain ⟨hpm, -, hdisj2⟩ := hnd
  rw [List.nodup_append] at hpm
  obtain ⟨-, -, hdisj1⟩ := hpm
  rw [List.filter_append, List.filter_append]
  have h1 : pre.filter (fun i => decide (i ∈ m)) = [] := by
    rw [List.filter_eq_nil_iff]
    intro x hx
    have : x ∉ m := fun hm => hdisj1 hx hm
    simpa using this
  have h2 : m.filter (fun i => decide (i ∈ m)) = m := by
    rw [List.filter_eq_self]
    intro x hx
    simpa using hx
  have h3 : post.filter (fun i => decide (i ∈ m)) = [] := by
    rw [List.filter_eq_nil_iff]
    intro x hx
    have : x ∉ m := fun hm => hdisj2 (List.mem_append_right _ hm) hx
    simpa using this
  rw [h1, h2, h3, List.nil_append, List.append_nil]

/-- Claim C6: for a well-formed descriptor and a name that resolves to the field
at the root of the subtree `sub`, `CollectColumns(name)` is the pre-order of
`sub`; it occurs in `CollectColumns("")` as a contiguous run, and it is the
full traversal restricted to the columns of the fields of `sub`, in the same
order. -/
theorem CollectColumns_subtree (desc : RNTupleDescriptor) (tree sub : FieldTree)
    (fuel : Nat) (name : String) (fieldId : Nat)
    (hwf : WellFormed desc tree) (hfuel : tree.height ≤ fuel)
    (hname : name.isEmpty = false) (hfind : desc.FindFieldId name = some fieldId)
    (hsub : sub ∈ tree.subtrees) (hid : sub.fieldId = fieldId) :
    ∃ part full, CollectColumns desc fuel name = .columns part ∧
      CollectColumns desc fuel "" = .columns full ∧
      part = preorderColumns desc sub ∧
      part <:+: full ∧
      part = full.filter (fun c => decide (c.fFieldDesc.fFieldId ∈ sub.ids)) := by
  obtain ⟨hroot, hlinked, hnodup, -⟩ := hwf
  obtain ⟨hsl, hsh, hsi⟩ := subtree_props desc tree sub hsub hlinked
  have hempty : ("" : String).isEmpty = true := rfl
  refine ⟨preorderColumns desc sub, preorderColumns desc tree, ?_, ?_, rfl, ?_, ?_⟩
  · exact collect_from desc sub fuel name hsl (by omega) (by rw [hname, hid]; simpa using hfind)
  · exact collect_from desc tree fuel "" hlinked hfuel (by rw [hempty, if_pos rfl, hroot])
  · rw [preorder_eq_flatMap, preorder_eq_flatMap]
    exact flatMap_infix _ hsi
  · rw [preorder_eq_flatMap, preorder_eq_flatMap, filter_flatMap_own,
      filter_mem_infix hnodup hsi]

/-- Claim C6, at the field `tracks` of `exampleSource`. -/
theorem CollectColumns_subtree_witness :
    ∃ part full, CollectColumns exampleSource.fDescriptor 3 "tracks" = .columns part ∧
      CollectColumns exampleSource.fDescriptor 3 "" = .columns full ∧
      part = preorderColumns exampleSource.fDescriptor (.node 2 [.node 4 []]) ∧
      part <:+: full ∧
      part = full.filter
        (fun c => decide (c.fFieldDesc.fFieldId ∈ (FieldTree.node 2 [.node 4 []]).ids)) :=
  CollectColumns_subtree exampleSource.fDescriptor exampleTree (.node 2 [.node 4 []]) 3
    "tracks" 2 (by decide) (by decide) (by decide) (by decide)
    (by simp [exampleTree, FieldTree.subtrees, FieldTree.subtreesOfList]) rfl

/-! ### The two programs and concrete runs -/

/-- Options that select nothing to dump leave `dumpFlags` at `kDumpNone`, unless
the loop ends in `Usage`. -/
theorem parsePagesOptions_no_flag :
    ∀ (options : List PagesOption) (s : PagesSettings),
      (∀ o ∈ options, o.selectsDump = false) →
      s.dumpFlags = kDumpNone →
      parsePagesOptions options s = .usage ∨
        ∃ s2, parsePagesOptions options s = .settings s2 ∧ s2.dumpFlags = kDumpNone := by
  intro options
  induction options with
  | nil => intro s _ hs; exact Or.inr ⟨s, rfl, hs⟩
  | cons o rest ih =>
    intro s hall hs
    have ho := hall o (List.mem_cons_self _ _)
    have hrest : ∀ o ∈ rest, o.selectsDump = false :=
      fun x hx => hall x (List.mem_cons_of_mem _ hx)
    cases o with
    | m => cases ho
    | a => cases ho
    | f optarg => cases ho
    | o optarg =>
      simp only [parsePagesOptions]
      exact ih _ hrest hs
    | h => exact Or.inl rfl
    | unrecognised => exact Or.inl rfl

/-- Claim C9, as amended: a run of `dump_pages` whose options contain none of
`-m`, `-a` and `-f` ends in `Usage`: it opens no dataset and writes no file,
and it terminates through `exit(0)`, with exit status 0. -/
theorem dumpPagesMain_without_flags_is_usage (host : Host) (fuel : Nat)
    (options : List PagesOption) (operands : List String)
    (hnone : ∀ o ∈ options, o.selectsDump = false) :
    dumpPagesMain host fuel options operands = ⟨.exit 0, false, []⟩ := by
  rcases parsePagesOptions_no_flag options ⟨kDumpNone, "", "./"⟩ hnone rfl with h | ⟨s2, h, hs⟩
  · simp only [dumpPagesMain, h, pagesUsage]
  · simp only [dumpPagesMain, h, hs, pagesUsage]
    simp

/-- Claim C9 as amended, at a command line with `-o out` and two operands. -/
theorem dumpPagesMain_without_flags_is_usage_witness :
    dumpPagesMain (hostWith exampleSource) 3 [.o "out"] ["f.root", "hits"]
      = ⟨.exit 0, false, []⟩ :=
  dumpPagesMain_without_flags_is_usage (hostWith exampleSource) 3 [.o "out"]
    ["f.root", "hits"] (by decide)

/-- Claim C9, as it is written, fails: a run of `dump_pages` with no option at
all and two operands does not end with a non-zero exit status. -/
theorem dumpPagesMain_no_flags_exits_zero :
    ¬ ∃ status, status ≠ 0 ∧
      (dumpPagesMain (hostWith exampleSource) 3 [] ["f.root", "hits"]).ending
        = Ending.exit status := by
  rintro ⟨status, hne, h⟩
  have h0 : (dumpPagesMain (hostWith exampleSource) 3 [] ["f.root", "hits"]).ending
      = Ending.exit 0 := by decide
  rw [h0] at h
  exact hne (Ending.exit.inj h).symm

/-- Claim C1 does not hold on the code: every case of the `switch` for an
unsigned integer type casts the single `char` at `buff[buffIdx]`.  On a plain
32-bit unsigned column whose page holds the bytes `00 01 00 00`, with a maximum
of 10, the line written is `0`, whatever the signedness of `char`, while the
four bytes read as a little-endian unsigned integer are 256.  On the bytes
`01 00 00 00 02 00 00 00` of the specification the two readings agree: `1`
then `2`. -/
theorem DumpColumnData_uint32_prints_first_byte :
    (∀ charIsSigned : Bool,
      (DumpColumnData charIsSigned (singleColumnSource .kUInt32 [(⟨1⟩, [0, 1, 0, 0])])
        0 10 10).map (fun r => r.2.output.map Line.text) = some [some "0"]) ∧
    (reinterpretedLines 4 [0, 1, 0, 0]).map Line.text = [some "256"] ∧
    (∀ charIsSigned : Bool,
      (DumpColumnData charIsSigned
        (singleColumnSource .kUInt32 [(⟨2⟩, [1, 0, 0, 0, 2, 0, 0, 0])]) 0 10 10).map
          (fun r => r.2.output.map Line.text) = some [some "1", some "2"]) := by
  decide

/-- Claim C5 does not hold on the code: `dump_column_data` run without `-n`
passes the maximum count 0, and `DumpColumnData` then returns at the first
element.  On column 1 of `exampleSource`, which holds four elements, the run
writes no line and ends with exit code 0. -/
theorem dumpColumnDataMain_default_prints_nothing :
    (dumpColumnDataMain (hostWith exampleSource) 10 [] ["1", "f.root", "hits"]).output = [] ∧
    (dumpColumnDataMain (hostWith exampleSource) 10 [] ["1", "f.root", "hits"]).ending
      = Ending.exit 0 ∧
    columnElements exampleSource 1 .kUInt32 = 4 ∧
    (columnLines true exampleSource 1 .kUInt32).length = 4 := by
  decide

/-- Claim C7 does not hold on the code: `fQualName` is built from the leaf name
of the field, which two fields of a well-formed descriptor may share.  In
`exampleSource` the item fields of `hits` and `tracks` are both named `_0`;
`DumpPages` on the columns of `CollectColumns("")` dumps 8 pages into 7
distinct files, and the file `out/cluster0__0-0_pg0.page` ends up with the page
of column 3, the page of column 1 written before it being overwritten. -/
theorem DumpPages_file_names_collide :
    WellFormed exampleSource.fDescriptor exampleTree ∧
    ∃ cols, CollectColumns exampleSource.fDescriptor 3 "" = .columns cols ∧
      (DumpPages exampleSource cols "out").files.length = 8 ∧
      ((DumpPages exampleSource cols "out").files.map (fun w => w.path)).dedup.length = 7 ∧
      (exampleSource.LoadSealedPage 1 ⟨0, 0⟩).fBuffer = [1, 0, 0, 0, 2, 0, 0, 0] ∧
      (exampleSource.LoadSealedPage 3 ⟨0, 0⟩).fBuffer = [0, 0, 128, 63] ∧
      pageFileName "out" 0 "_0-0" 0 = "out/cluster0__0-0_pg0.page" ∧
      fileContent (DumpPages exampleSource cols "out").files "out/cluster0__0-0_pg0.page"
        = some [0, 0, 128, 63] := by
  refine ⟨by decide, _, rfl, ?_, ?_, ?_, ?_, ?_, ?_⟩ <;> decide

end RNTupleDumper
